import Mathlib

/-!
Shallow embedding of the scheduling engine of the schedu-generation
repository (src/scheduler.py, src/managers/constraint_manager.py,
src/managers/resource_manager.py and the model files they use), together
with proofs settling the frozen claims about it.

Modelling conventions:
* Python `datetime.time` values are `(hour, minute)` pairs (`Tm`); the code
  only ever constructs times with zero minutes, and compares them with the
  lexicographic order that Python uses.
* Python dicts are association lists; `aset` reproduces dict assignment
  (update in place if the key exists, append otherwise) and `alookup`
  reproduces `d[k]` / `k in d`.  Nested dicts (`room_bookings`,
  `staff_bookings`, `course_slots`, `level_slots`) are flattened to
  composite keys; every access in the source is a lookup or an update at a
  single `(outer, inner)` pair, so the flattening preserves semantics.
* Python floats are modelled as exact rationals (`ℚ`); every constant the
  code uses (0.8, 0.95, the weights and scores) is taken at its decimal
  value.
* Python `sorted` is a stable sort; `sortBy` below is insertion sort with
  a total boolean `le`, which places an earlier-listed element before any
  tie, i.e. it is stable, hence it computes the same list as `sorted`.
* Python sets have an unspecified iteration order; the model fixes the
  first-occurrence order (`dedupFirst`).  Claims that depend on the actual
  hash-based order cannot be stated in this embedding.
* Exceptions that `make_assignment` catches (followed by a rollback to the
  snapshot) are modelled by `Option`: `none` means "raised", and the
  caller keeps the prior state, which is what the deep-copy rollback in
  the source produces.
-/

namespace Schedu

/-- models/time_preferences.py: `Day` enumeration. -/
inductive Day where
  | sunday
  | monday
  | tuesday
  | wednesday
  | thursday
  | friday
  | saturday
deriving DecidableEq

/-- `Day.value` as in the Python enum. -/
def Day.value : Day → Nat
  | .sunday => 0
  | .monday => 1
  | .tuesday => 2
  | .wednesday => 3
  | .thursday => 4
  | .friday => 5
  | .saturday => 6

/-- `datetime.time` restricted to hour and minute, the only components the
code ever sets (seconds and microseconds are always zero). -/
structure Tm where
  hour : Nat
  minute : Nat
deriving DecidableEq

/-- Python `time` comparison (lexicographic on components). -/
def Tm.le (a b : Tm) : Bool :=
  decide (a.hour < b.hour) || (decide (a.hour = b.hour) && decide (a.minute ≤ b.minute))

/-- models/time_preferences.py: `TimePreference`. -/
structure TimePreference where
  day : Day
  start_time : Tm
  end_time : Tm
deriving DecidableEq

/-- models/labs.py: `LabType`. -/
inductive LabType where
  | general
  | specialist
deriving DecidableEq

/-- models/halls.py: `Hall`. -/
structure Hall where
  id : Nat
  name : String
  capacity : Nat
  availability : List TimePreference
deriving DecidableEq

/-- models/labs.py: `Lab`. -/
structure Lab where
  id : Nat
  name : String
  capacity : Nat
  availability : List TimePreference
  lab_type : LabType
  used_in_non_specialist_courses : Bool
deriving DecidableEq

/-- A room is a `Hall` or a `Lab` (`Union[Hall, Lab]` in the source);
`isinstance` tests become constructor matches. -/
inductive Room where
  | hall (h : Hall)
  | lab (l : Lab)
deriving DecidableEq

def Room.capacity : Room → Nat
  | .hall h => h.capacity
  | .lab l => l.capacity

def Room.availability : Room → List TimePreference
  | .hall h => h.availability
  | .lab l => l.availability

def hallTag : String := "hall"

def labTag : String := "lab"

/-- utils/room_utils.py: `get_room_key` — composite `(room_type, room_id)`. -/
def get_room_key : Room → String × Nat
  | .hall h => (hallTag, h.id)
  | .lab l => (labTag, l.id)

/-- models/staff_members.py: the common fields of `StaffMember`
(`department` is reduced to its name; the engine never reads into it). -/
structure StaffMember where
  id : Nat
  name : String
  department : String
  timing_preferences : List TimePreference
  academic_degree : Nat
  is_permanent : Bool
deriving DecidableEq

/-- `Lecturer` / `TeachingAssistant` subclasses as a tagged sum;
`isinstance(x, Lecturer)` becomes a match on the tag. -/
inductive Staff where
  | lecturer (m : StaffMember)
  | ta (m : StaffMember)
deriving DecidableEq

def Staff.member : Staff → StaffMember
  | .lecturer m => m
  | .ta m => m

def Staff.sid (s : Staff) : Nat := s.member.id

def Staff.timing_preferences (s : Staff) : List TimePreference :=
  s.member.timing_preferences

/-- models/study_plan.py: `LecturerAssignment` TypedDict. -/
structure LecturerAssignment where
  lecturer : StaffMember
  num_of_groups : Nat
deriving DecidableEq

/-- models/study_plan.py: `TAAssignment` TypedDict. -/
structure TAAssignment where
  teaching_assistant : StaffMember
  num_of_groups : Nat
deriving DecidableEq

/-- models/study_plan.py: `CourseAssignment`.  `lab_groups = 0` models the
Python `None`/`0` default and `teaching_assistants = []` models `None`
(the source only ever tests both for truthiness). -/
structure CourseAssignment where
  course_id : Nat
  course_code : String
  lecture_groups : Nat
  lecturers : List LecturerAssignment
  lab_groups : Nat
  teaching_assistants : List TAAssignment
  practical_in_lab : Bool
  preferred_labs : List Lab
  is_common : Bool
deriving DecidableEq

/-- models/academic_list.py: `AcademicList`, reduced to the fields the
engine reads (`name`); the course catalogue inside it is never consulted
by the scheduler. -/
structure AcademicList where
  id : Nat
  name : String
  department : String
deriving DecidableEq

/-- models/study_plan.py: `StudyPlan`. -/
structure StudyPlan where
  name : String
  academic_list : AcademicList
  academic_level : Nat
  expected_students : Nat
deriving DecidableEq

/-- models/block.py: `BlockType`. -/
inductive BlockType where
  | lecture
  | lab
deriving DecidableEq

/-- models/block.py: `Block`.  `preferred_rooms = []` models the Python
`None` default (the source only tests it for truthiness, iterates it and
tests membership). -/
structure Block where
  id : String
  course_code : String
  course_object : CourseAssignment
  block_type : BlockType
  staff_member : Staff
  student_count : Nat
  required_room_type : String
  group_number : Nat
  total_groups : Nat
  is_single_group_course : Bool
  academic_list : String
  academic_level : Nat
  practical_in_lab : Bool
  preferred_rooms : List Room
deriving DecidableEq

/-- models/block.py: `Assignment`. -/
structure Assignment where
  block : Block
  time_slot : TimePreference
  room : Room
deriving DecidableEq

/-! ### List helpers mirroring Python dict/set/sort primitives -/

/-- Membership test on a list (Python `x in xs`). -/
def lmem [DecidableEq α] (x : α) : List α → Bool
  | [] => false
  | y :: ys => if y = x then true else lmem x ys

/-- First element satisfying `p` (Python `for`-loop with early return). -/
def lfind (p : α → Bool) : List α → Option α
  | [] => none
  | x :: xs => if p x then some x else lfind p xs

/-- All elements satisfy `p`. -/
def lall (p : α → Bool) : List α → Bool
  | [] => true
  | x :: xs => p x && lall p xs

/-- Association-list lookup (Python `d[k]` / `k in d`). -/
def alookup [DecidableEq κ] (k : κ) : List (κ × ν) → Option ν
  | [] => none
  | (k', v) :: rest => if k' = k then some v else alookup k rest

/-- Association-list assignment (Python `d[k] = v`): update in place when
the key exists, append otherwise — exactly the insertion-order semantics
of a Python dict. -/
def aset [DecidableEq κ] (k : κ) (v : ν) : List (κ × ν) → List (κ × ν)
  | [] => [(k, v)]
  | (k', v') :: rest => if k' = k then (k, v) :: rest else (k', v') :: aset k v rest

/-- First-occurrence deduplication, skipping elements already `seen`. -/
def dedupFirstAux [DecidableEq α] (seen : List α) : List α → List α
  | [] => []
  | x :: xs =>
    if lmem x seen then dedupFirstAux seen xs
    else x :: dedupFirstAux (x :: seen) xs

/-- First-occurrence deduplication: the canonical order this model fixes
for iterating a Python set built from a list. -/
def dedupFirst [DecidableEq α] (l : List α) : List α := dedupFirstAux [] l

/-- Insert `x` before the first element `y` with `le x y`; the building
block of the stable sort below. -/
def insertBy (le : α → α → Bool) (x : α) : List α → List α
  | [] => [x]
  | y :: ys => if le x y then x :: y :: ys else y :: insertBy le x ys

/-- Stable insertion sort.  For a total preorder `le` it produces the same
list as Python's (stable) `sorted`. -/
def sortBy (le : α → α → Bool) : List α → List α
  | [] => []
  | x :: xs => insertBy le x (sortBy le xs)

/-! ### Exact rationals with value semantics

Python floats are modelled as exact fractions.  The fractions are kept
unnormalised (no gcd) so that every operation reduces inside the Lean
kernel; all comparisons are by value (cross-multiplication), which is how
every float in the source is consumed.  Every fraction the pipeline
builds has a positive denominator. -/

structure Q where
  num : ℤ
  den : ℕ
deriving DecidableEq

def Q.ofNat (n : Nat) : Q := ⟨(n : ℤ), 1⟩

def Q.add (a b : Q) : Q := ⟨a.num * (b.den : ℤ) + b.num * (a.den : ℤ), a.den * b.den⟩

def Q.mul (a b : Q) : Q := ⟨a.num * b.num, a.den * b.den⟩

/-- Reciprocal; a zero numerator (Python would raise `ZeroDivisionError`,
which the pipeline never does on validated inputs) maps to zero. -/
def Q.inv (a : Q) : Q :=
  if 0 < a.num then ⟨(a.den : ℤ), a.num.toNat⟩
  else if a.num < 0 then ⟨-(a.den : ℤ), (-a.num).toNat⟩
  else ⟨0, 1⟩

def Q.div (a b : Q) : Q := a.mul b.inv

def Q.le (a b : Q) : Bool := decide (a.num * (b.den : ℤ) ≤ b.num * (a.den : ℤ))

def Q.lt (a b : Q) : Bool := decide (a.num * (b.den : ℤ) < b.num * (a.den : ℤ))

/-- Value equality of fractions (float `==`). -/
def Q.eqv (a b : Q) : Bool := decide (a.num * (b.den : ℤ) = b.num * (a.den : ℤ))

/-- The rational value of a fraction, for stating claims against `ℚ`. -/
def Q.toRat (a : Q) : ℚ := (a.num : ℚ) / (a.den : ℚ)

/-- Left-fold sum (`+=` accumulation in the source). -/
def qsum (l : List Q) : Q := l.foldl Q.add (Q.ofNat 0)

/-! ### Constraint manager (src/managers/constraint_manager.py) -/

abbrev SlotKey := Day × Tm

abbrev RoomKey := String × Nat

/-- `(slot.day, slot.start_time)` — the slot identity used by every index. -/
def slot_key (s : TimePreference) : SlotKey := (s.day, s.start_time)

def room_slot_of (a : Assignment) : RoomKey × SlotKey :=
  (get_room_key a.room, slot_key a.time_slot)

def staff_slot_of (a : Assignment) : Nat × SlotKey :=
  (a.block.staff_member.sid, slot_key a.time_slot)

def course_slot_of (a : Assignment) : String × SlotKey :=
  (a.block.course_object.course_code, slot_key a.time_slot)

def level_key_of (a : Assignment) : (String × Nat) × Day :=
  ((a.block.academic_list, a.block.academic_level), a.time_slot.day)

def sp_key_of (a : Assignment) : String × Day × Tm :=
  (a.block.academic_list, a.time_slot.day, a.time_slot.start_time)

/-- `SchedulerState` (the five indices) together with the
`current_assignments` map, i.e. the whole mutable state the
`ConstraintManager` owns.  The nested dicts of the source are flattened to
composite keys (see the header comment). -/
structure CM where
  room_bookings : List ((RoomKey × SlotKey) × String)
  staff_bookings : List ((Nat × SlotKey) × String)
  course_slots : List ((String × SlotKey) × Nat)
  level_slots : List (((String × Nat) × Day) × List Tm)
  study_plan_slots : List ((String × Day × Tm) × List String)
  current_assignments : List (String × Assignment)
deriving DecidableEq

/-- `initialize_fresh_state` / `SchedulerState.create_empty`. -/
def CM.empty : CM := ⟨[], [], [], [], [], []⟩

/-- `check_room_booking`: the `(room_key, slot_key)` pair is not yet in
`room_bookings`. -/
def check_room_booking (cm : CM) (_block : Block) (slot : TimePreference)
    (room : Room) : Bool :=
  (alookup (get_room_key room, slot_key slot) cm.room_bookings).isNone

/-- `check_staff_booking`: the staff member is free at the slot. -/
def check_staff_booking (cm : CM) (block : Block) (slot : TimePreference)
    (_room : Room) : Bool :=
  (alookup (block.staff_member.sid, slot_key slot) cm.staff_bookings).isNone

/-- `check_room_availability`: some availability entry of the room covers
the slot (same day, `start ≤ slot.start`, `end ≥ slot.end`). -/
def check_room_availability (_block : Block) (slot : TimePreference)
    (room : Room) : Bool :=
  room.availability.any (fun pref =>
    decide (pref.day = slot.day) && Tm.le pref.start_time slot.start_time &&
      Tm.le slot.end_time pref.end_time)

/-- The inner lookup of `check_single_group_conflict`: find the block of
the assignment whose block id equals `bid` (first match wins; ids that
match no assignment are silently dropped, as in the source). -/
def findBlockById (assignments : List (String × Assignment)) (bid : String) :
    Option Block :=
  (lfind (fun p => decide (p.2.block.id = bid)) assignments).map (fun p => p.2.block)

/-- `check_single_group_conflict`: at `(academic_list, day, start)` a
single-group block tolerates no company, and two blocks of the same course
are only allowed when both have more than one group.  (The source never
compares blocks of different courses.) -/
def check_single_group_conflict (cm : CM) (block : Block)
    (slot : TimePreference) (_room : Room) : Bool :=
  match alookup (block.academic_list, slot.day, slot.start_time) cm.study_plan_slots with
  | none => true
  | some bids =>
    let existing_blocks := bids.filterMap (findBlockById cm.current_assignments)
    if block.is_single_group_course then false
    else
      lall (fun eb =>
        !eb.is_single_group_course &&
          (decide (eb.course_code ≠ block.course_object.course_code) ||
            (decide (block.total_groups ≠ 1) && decide (eb.total_groups ≠ 1))))
        existing_blocks

/-- `check_lab_requirements`: lab blocks need a `Lab` (a preferred one
when `preferred_rooms` is set, otherwise a non-specialist-usable one);
hall blocks need a `Hall`. -/
def check_lab_requirements (block : Block) (_slot : TimePreference)
    (room : Room) : Bool :=
  if block.required_room_type = labTag then
    match room with
    | .hall _ => false
    | .lab l =>
      if !block.preferred_rooms.isEmpty then lmem room block.preferred_rooms
      else l.used_in_non_specialist_courses
  else if block.required_room_type = hallTag then
    match room with
    | .hall _ => true
    | .lab _ => false
  else true

/-- `can_assign`: all five hard constraints, in registration order.  The
violation description strings are irrelevant to every claim, so only the
boolean verdict is modelled. -/
def can_assign (cm : CM) (block : Block) (slot : TimePreference)
    (room : Room) : Bool :=
  check_room_booking cm block slot room &&
    check_staff_booking cm block slot room &&
    check_room_availability block slot room &&
    check_single_group_conflict cm block slot room &&
    check_lab_requirements block slot room

/-- `_verify_no_conflicts_before_commit`: no already-stored assignment at
the same `(day, start)` shares the room key or the staff id.  `true`
means the check passed (the source raises on conflict). -/
def verify_no_conflicts_before_commit (cm : CM) (a : Assignment) : Bool :=
  lall (fun p =>
    !(decide (p.2.time_slot.day = a.time_slot.day) &&
      decide (p.2.time_slot.start_time = a.time_slot.start_time) &&
      (decide (get_room_key p.2.room = get_room_key a.room) ||
        decide (p.2.block.staff_member.sid = a.block.staff_member.sid))))
    cm.current_assignments

/-- The successful tail of `_add_to_state`: every one of the five indices
and the assignments map updated with the new entry.  The count/list
lookups read the pre-update state, as each dict is touched exactly once. -/
def apply_add (cm : CM) (bid : String) (a : Assignment) : CM where
  room_bookings := aset (room_slot_of a) bid cm.room_bookings
  staff_bookings := aset (staff_slot_of a) bid cm.staff_bookings
  course_slots :=
    aset (course_slot_of a) ((alookup (course_slot_of a) cm.course_slots).getD 0 + 1)
      cm.course_slots
  level_slots :=
    aset (level_key_of a)
      ((alookup (level_key_of a) cm.level_slots).getD [] ++ [a.time_slot.start_time])
      cm.level_slots
  study_plan_slots :=
    aset (sp_key_of a) ((alookup (sp_key_of a) cm.study_plan_slots).getD [] ++ [bid])
      cm.study_plan_slots
  current_assignments := aset bid a cm.current_assignments

/-- `_add_to_state`: `none` models a raised exception.  The source mutates
as it goes and the caller rolls back on an exception, so only the fully
updated state (`apply_add`) can escape; the four guards are exactly the
four `raise` sites, and none of them reads a field written by an earlier
update of the same call. -/
def add_to_state (cm : CM) (bid : String) (a : Assignment) : Option CM :=
  if verify_no_conflicts_before_commit cm a = false then none
  else if (alookup bid cm.current_assignments).isSome then none
  else if (alookup (room_slot_of a) cm.room_bookings).isSome then none
  else if (alookup (staff_slot_of a) cm.staff_bookings).isSome then none
  else some (apply_add cm bid a)

/-- `make_assignment`: atomic commit.  On any failure the source restores
the deep-copied snapshot, which in a pure model is the unchanged prior
state. -/
def make_assignment (cm : CM) (bid : String) (a : Assignment) : Bool × CM :=
  if (alookup bid cm.current_assignments).isSome then (false, cm)
  else
    match add_to_state cm bid a with
    | some cm' => (true, cm')
    | none => (false, cm)

/-- The exact condition under which `make_assignment` commits: a fresh
block id, no map-level conflict, and free room/staff index slots. -/
def commit_ok (cm : CM) (bid : String) (a : Assignment) : Prop :=
  alookup bid cm.current_assignments = none ∧
    verify_no_conflicts_before_commit cm a = true ∧
    alookup (room_slot_of a) cm.room_bookings = none ∧
    alookup (staff_slot_of a) cm.staff_bookings = none

instance (cm : CM) (bid : String) (a : Assignment) : Decidable (commit_ok cm bid a) := by
  unfold commit_ok
  infer_instance

/-- `evaluate_lecturer_preferences` (soft S1). -/
def evaluate_lecturer_preferences (block : Block) (slot : TimePreference)
    (_room : Room) : Q :=
  match block.staff_member with
  | .ta _ => Q.ofNat 0
  | .lecturer m =>
    if m.timing_preferences.any (fun p =>
        decide (p.day = slot.day) && decide (p.start_time = slot.start_time))
    then Q.ofNat 1 else Q.ofNat 0

/-- `evaluate_ta_preferences` (soft S2). -/
def evaluate_ta_preferences (block : Block) (slot : TimePreference)
    (_room : Room) : Q :=
  match block.staff_member with
  | .lecturer _ => Q.ofNat 0
  | .ta m =>
    if m.timing_preferences.any (fun p =>
        decide (p.day = slot.day) && decide (p.start_time = slot.start_time))
    then Q.ofNat 1 else Q.ofNat 0

/-- Largest hour difference between consecutive elements of an
(ascending) list of times. -/
def maxConsecGap : List Tm → Nat
  | a :: b :: rest => max (b.hour - a.hour) (maxConsecGap (b :: rest))
  | _ => 0

/-- `evaluate_gaps` (soft S3), reading `level_slots`. -/
def evaluate_gaps (cm : CM) (block : Block) (slot : TimePreference)
    (_room : Room) : Q :=
  match alookup ((block.academic_list, block.academic_level), slot.day) cm.level_slots with
  | none => Q.ofNat 1
  | some ts =>
    let day_slots := sortBy Tm.le ts
    let base := maxConsecGap day_slots
    let max_gap :=
      match day_slots with
      | [] => base
      | t :: rest =>
        let hs := (t :: rest).map Tm.hour
        let mn := hs.foldr min t.hour
        let mx := hs.foldr max t.hour
        let before_gap := ((slot.start_time.hour : ℤ) - (mn : ℤ)).natAbs
        let after_gap := ((slot.start_time.hour : ℤ) - (mx : ℤ)).natAbs
        max base (max before_gap after_gap)
    if max_gap ≤ 2 then Q.ofNat 1 else if max_gap ≤ 4 then Q.mk 1 2 else Q.ofNat 0

/-- `evaluate_room_capacity` (soft S4), with the float utilisation ratio
taken as an exact fraction. -/
def evaluate_room_capacity (block : Block) (_slot : TimePreference)
    (room : Room) : Q :=
  let utilization : Q := (Q.ofNat block.student_count).div (Q.ofNat room.capacity)
  if Q.le (Q.mk 1 2) utilization && Q.le utilization (Q.mk 9 10) then Q.ofNat 1
  else if Q.le (Q.mk 3 10) utilization && Q.lt utilization (Q.mk 1 2) then Q.mk 7 10
  else if Q.lt (Q.mk 9 10) utilization && Q.le utilization (Q.ofNat 1) then Q.mk 7 10
  else if Q.lt utilization (Q.mk 3 10) then Q.mk 3 10
  else Q.ofNat 0

/-- `evaluate_soft_constraints`: weighted sum of the four soft scores,
added in registration order. -/
def evaluate_soft_constraints (cm : CM) (block : Block)
    (slot : TimePreference) (room : Room) : Q :=
  ((((Q.ofNat 0).add
    ((evaluate_lecturer_preferences block slot room).mul (Q.ofNat 5))).add
    ((evaluate_ta_preferences block slot room).mul (Q.ofNat 3))).add
    ((evaluate_gaps cm block slot room).mul (Q.ofNat 2))).add
    ((evaluate_room_capacity block slot room).mul (Q.mk 3 2))

/-! ### Resource manager (src/managers/resource_manager.py) -/

/-- `ResourceManager`: the room catalogue and the slot duration.  The
source keeps `{id: room}` dicts built from the constructor lists and only
ever iterates `.values()`, which (insertion order) is the original list
when ids are distinct, so the lists themselves are kept.  The usage
counters are never read by the scheduling pipeline and are omitted. -/
structure ResourceManager where
  halls : List Hall
  labs : List Lab
  time_slot_duration : Nat
  break_duration : Nat
deriving DecidableEq

/-- `|room.capacity - required_capacity|` over integers. -/
def capacityDist (cap required : Nat) : Nat := max cap required - min cap required

/-- The capacity gate `room.capacity >= required * 0.8` with the float
`0.8` taken as the exact fraction 4/5 (the ratio parameter defaults to
0.8 and no caller overrides it). -/
def capOk (cap required : Nat) : Bool :=
  Q.le ((Q.ofNat required).mul (Q.mk 4 5)) (Q.ofNat cap)

/-- `get_suitable_rooms`: branch on the required room type, filter by the
capacity gate, and stable-sort by tightest capacity fit. -/
def get_suitable_rooms (rm : ResourceManager) (block : Block) : List Room :=
  let required := block.student_count
  let suitable :=
    if block.required_room_type = labTag then
      if !block.preferred_rooms.isEmpty then
        block.preferred_rooms.filter (fun r => capOk r.capacity required)
      else
        (rm.labs.filter (fun l =>
          l.used_in_non_specialist_courses && capOk l.capacity required)).map Room.lab
    else
      (rm.halls.filter (fun h => capOk h.capacity required)).map Room.hall
  sortBy (fun a b => decide (capacityDist a.capacity required ≤ capacityDist b.capacity required))
    suitable

/-- Boolean order placing slots the staff member prefers first
(`sorted(..., key=lambda x: x in staff_slots, reverse=True)`). -/
def taPrefLe (staff_slots : List SlotKey) (a b : SlotKey) : Bool :=
  !lmem b staff_slots || lmem a staff_slots

/-- `get_available_slots`: the room's availability minus the slots already
used in this room, intersected with the lecturer's preferences (strict)
or reordered to put the TA's preferences first (soft), each slot carrying
the canonical `end = start + duration`.  The source iterates Python sets
here; the model fixes the first-occurrence order (see header). -/
def get_available_slots (rm : ResourceManager) (block : Block) (room : Room)
    (existing_assignments : List (String × Assignment)) : List TimePreference :=
  let base_slots := dedupFirst (room.availability.map slot_key)
  let used_slots :=
    (existing_assignments.filter (fun p => p.2.room = room)).map
      (fun p => slot_key p.2.time_slot)
  let staff_slots := block.staff_member.timing_preferences.map slot_key
  let available := base_slots.filter (fun k => !lmem k used_slots)
  let tuples :=
    match block.staff_member with
    | .ta _ => sortBy (taPrefLe staff_slots) available
    | .lecturer _ => available.filter (fun k => lmem k staff_slots)
  tuples.map (fun k =>
    TimePreference.mk k.1 k.2 (Tm.mk (k.2.hour + rm.time_slot_duration) 0))

/-- One day of `_generate_time_slots`: from 09:00 while
`hour + duration <= 19`, skipping the Monday 13:00/14:00 starts (advance
by one hour there).  The fuel argument only bounds the loop; 24 exceeds
the iterations of any run with a positive duration, where the hour grows
every step. -/
def generate_time_slots_day (dur brk : Nat) (day : Day) :
    Nat → Tm → List TimePreference
  | 0, _ => []
  | fuel + 1, current =>
    if current.hour + dur ≤ 19 then
      if day = Day.monday ∧ (current.hour = 13 ∨ current.hour = 14) then
        generate_time_slots_day dur brk day fuel (Tm.mk (current.hour + 1) 0)
      else
        TimePreference.mk day current (Tm.mk (current.hour + dur) 0) ::
          generate_time_slots_day dur brk day fuel
            (if 0 < brk then Tm.mk (current.hour + dur + brk) 0
             else Tm.mk (current.hour + dur) 0)
    else []

/-- `_generate_time_slots`: the working-week grid Sunday–Thursday. -/
def generate_time_slots (dur brk : Nat) : List TimePreference :=
  [Day.sunday, Day.monday, Day.tuesday, Day.wednesday, Day.thursday].foldr
    (fun day acc => generate_time_slots_day dur brk day 24 (Tm.mk 9 0) ++ acc) []

/-- One day of `BaseAvailability.generate_base_availability`
(models/time_preferences.py): fixed 2-hour slots, skipping Monday starts
at 12:00 and 13:00 (advance by the slot duration there). -/
def generate_base_availability_day (day : Day) : Nat → Tm → List TimePreference
  | 0, _ => []
  | fuel + 1, current =>
    if current.hour + 2 ≤ 19 then
      if day = Day.monday ∧ (current.hour = 13 ∨ current.hour = 12) then
        generate_base_availability_day day fuel (Tm.mk (current.hour + 2) 0)
      else
        TimePreference.mk day current (Tm.mk (current.hour + 2) 0) ::
          generate_base_availability_day day fuel (Tm.mk (current.hour + 2) 0)
    else []

/-- `BaseAvailability.generate_base_availability`. -/
def generate_base_availability : List TimePreference :=
  [Day.sunday, Day.monday, Day.tuesday, Day.wednesday, Day.thursday].foldr
    (fun day acc => generate_base_availability_day day 24 (Tm.mk 9 0) ++ acc) []

/-! ### Scheduling engine (src/scheduler.py) -/

def underscoreStr : String := "_"

def lecturePrefixStr : String := "L"

def labPrefixStr : String := "P"

/-- Block id `L_<course>_<staff>_<grp>`. -/
def lecture_block_id (code : String) (staffId grp : Nat) : String :=
  lecturePrefixStr ++ underscoreStr ++ code ++ underscoreStr ++ toString staffId ++
    underscoreStr ++ toString grp

/-- Block id `P_<course>_<staff>_<grp>`. -/
def lab_block_id (code : String) (staffId grp : Nat) : String :=
  labPrefixStr ++ underscoreStr ++ code ++ underscoreStr ++ toString staffId ++
    underscoreStr ++ toString grp

/-- One lecture block of `_convert_course_assignments_to_blocks`. -/
def mk_lecture_block (course : CourseAssignment) (sp : StudyPlan)
    (lect : StaffMember) (grp : Nat) : Block where
  id := lecture_block_id course.course_code lect.id grp
  course_code := course.course_code
  course_object := course
  block_type := BlockType.lecture
  staff_member := Staff.lecturer lect
  student_count := sp.expected_students / course.lecture_groups
  required_room_type := hallTag
  group_number := grp
  total_groups := course.lecture_groups
  is_single_group_course := course.lecture_groups = 1
  academic_list := sp.academic_list.name
  academic_level := sp.academic_level
  practical_in_lab := true
  preferred_rooms := []

/-- One lab block of `_convert_course_assignments_to_blocks`. -/
def mk_lab_block (course : CourseAssignment) (sp : StudyPlan)
    (ta : StaffMember) (grp : Nat) : Block where
  id := lab_block_id course.course_code ta.id grp
  course_code := course.course_code
  course_object := course
  block_type := BlockType.lab
  staff_member := Staff.ta ta
  student_count := sp.expected_students / course.lab_groups
  required_room_type := if course.practical_in_lab then labTag else hallTag
  group_number := grp
  total_groups := course.lab_groups
  is_single_group_course := course.lab_groups = 1
  academic_list := sp.academic_list.name
  academic_level := sp.academic_level
  practical_in_lab := course.practical_in_lab
  preferred_rooms := course.preferred_labs.map Room.lab

/-- The lecture-block loop: a running group counter starting at 1,
`num_of_groups` blocks per lecturer entry. -/
def mk_lecture_blocks (course : CourseAssignment) (sp : StudyPlan) :
    List LecturerAssignment → Nat → List Block
  | [], _ => []
  | la :: rest, cnt =>
    (List.range la.num_of_groups).map
        (fun j => mk_lecture_block course sp la.lecturer (cnt + j)) ++
      mk_lecture_blocks course sp rest (cnt + la.num_of_groups)

/-- The lab-block loop (same running-counter pattern over the TA list). -/
def mk_lab_blocks (course : CourseAssignment) (sp : StudyPlan) :
    List TAAssignment → Nat → List Block
  | [], _ => []
  | ta :: rest, cnt =>
    (List.range ta.num_of_groups).map
        (fun j => mk_lab_block course sp ta.teaching_assistant (cnt + j)) ++
      mk_lab_blocks course sp rest (cnt + ta.num_of_groups)

/-- Blocks of one course: lectures always, labs only when `lab_groups > 0`
and a teaching-assistant list is present (otherwise the source `continue`s
to the next course). -/
def blocks_of_course (course : CourseAssignment) (sp : StudyPlan) : List Block :=
  mk_lecture_blocks course sp course.lecturers 1 ++
    (if 0 < course.lab_groups ∧ ¬course.teaching_assistants.isEmpty then
      mk_lab_blocks course sp course.teaching_assistants 1
    else [])

/-- `_convert_course_assignments_to_blocks`.  The source receives the
course list and a dict `{index: study_plan}` and reads
`study_plan_mapping[i]` for the i-th course; the model takes the
already-zipped pairs. -/
def convert_course_assignments_to_blocks
    (inputs : List (CourseAssignment × StudyPlan)) : List Block :=
  inputs.foldr (fun p acc => blocks_of_course p.1 p.2 ++ acc) []

/-- `_calculate_block_priority`. -/
def calculate_block_priority (block : Block) : Q :=
  ((((if !block.preferred_rooms.isEmpty then Q.ofNat 10 else Q.ofNat 0).add
    (if block.is_single_group_course then Q.ofNat 20 else Q.ofNat 0)).add
    (match block.staff_member with
      | .lecturer _ => Q.ofNat 15
      | .ta _ => Q.ofNat 0)).add
    (if block.required_room_type = labTag then Q.ofNat 8 else Q.ofNat 0)).add
    ((Q.ofNat block.student_count).div (Q.ofNat 100))

/-- The sort key of `_sort_blocks_by_priority`: a Python 4-tuple
`(bool, -len(rooms), -total_slots, priority)`. -/
structure PKey where
  single : Bool
  neg_rooms : ℤ
  neg_slots : ℤ
  priority : Q
deriving DecidableEq

/-- Python tuple `<=` on `PKey` (bools compare as 0/1, floats by
value). -/
def PKey.le (a b : PKey) : Bool :=
  if a.single = b.single then
    if a.neg_rooms = b.neg_rooms then
      if a.neg_slots = b.neg_slots then Q.le a.priority b.priority
      else decide (a.neg_slots ≤ b.neg_slots)
    else decide (a.neg_rooms ≤ b.neg_rooms)
  else decide (a.single = false)

/-- `get_block_score` inside `_sort_blocks_by_priority`. -/
def block_score (rm : ResourceManager) (cm : CM) (block : Block) : PKey where
  single := block.is_single_group_course
  neg_rooms := -((get_suitable_rooms rm block).length : ℤ)
  neg_slots :=
    -((((get_suitable_rooms rm block).map
        (fun room => (get_available_slots rm block room cm.current_assignments).length)).sum : ℤ))
  priority := calculate_block_priority block

/-- `_sort_blocks_by_priority`: stable sort, descending by `PKey`
(`sorted(..., reverse=True)`). -/
def sort_blocks_by_priority (rm : ResourceManager) (cm : CM)
    (blocks : List Block) : List Block :=
  sortBy (fun a b => PKey.le (block_score rm cm b) (block_score rm cm a)) blocks

/-- The room loop of `_schedule_single_block`: first room with a slot
passing `can_assign`. -/
def find_room_slot (rm : ResourceManager) (cm : CM) (block : Block) :
    List Room → Option Assignment
  | [] => none
  | room :: rest =>
    match lfind (fun slot => can_assign cm block slot room)
        (get_available_slots rm block room cm.current_assignments) with
    | some slot => some (Assignment.mk block slot room)
    | none => find_room_slot rm cm block rest

/-- `_schedule_single_block`. -/
def schedule_single_block (rm : ResourceManager) (cm : CM) (block : Block) :
    Option Assignment :=
  find_room_slot rm cm block (get_suitable_rooms rm block)

/-- The per-attempt placement loop: try each block in order, committing
through `make_assignment` and counting successes. -/
def place_blocks (rm : ResourceManager) : List Block → CM → Nat → CM × Nat
  | [], cm, count => (cm, count)
  | block :: rest, cm, count =>
    match schedule_single_block rm cm block with
    | some a =>
      let r := make_assignment cm block.id a
      place_blocks rm rest r.2 (if r.1 then count + 1 else count)
    | none => place_blocks rm rest cm count

/-- `_evaluate_schedule`: mean soft score of the assignments (0 when the
map is empty), read against the given constraint-manager state. -/
def evaluate_schedule (cm : CM) (assignments : List (String × Assignment)) : Q :=
  if assignments.isEmpty then Q.ofNat 0
  else
    (qsum (assignments.map (fun p =>
      evaluate_soft_constraints cm p.2.block p.2.time_slot p.2.room))).div
      (Q.ofNat assignments.length)

/-- The observable outcome of one scheduling attempt. -/
structure AttemptOutcome where
  assignments : List (String × Assignment)
  scheduled_count : Nat
  score : Q
deriving DecidableEq

/-- One iteration of the attempt loop: fresh state, priority sort,
placement, evaluation. -/
def run_attempt (rm : ResourceManager) (blocks : List Block) : AttemptOutcome :=
  let cm0 := CM.empty
  let sorted_blocks := sort_blocks_by_priority rm cm0 blocks
  let r := place_blocks rm sorted_blocks cm0 0
  AttemptOutcome.mk r.1.current_assignments r.2 (evaluate_schedule r.1 r.1.current_assignments)

/-- The best attempt so far (`best_assignments`, `best_score`,
`best_count`). -/
structure BestSt where
  assignments : List (String × Assignment)
  score : Q
  count : Nat
deriving DecidableEq

/-- The `for attempt in range(max_attempts)` loop of `schedule_blocks`:
run an attempt, keep it when it places strictly more blocks or equally
many with a strictly higher score, and break once an attempt places every
block with score at least 0.95.  Also returns the number of attempts
executed. -/
def attempt_loop (rm : ResourceManager) (blocks : List Block) (total : Nat) :
    Nat → BestSt → BestSt × Nat
  | 0, best => (best, 0)
  | n + 1, best =>
    let r := run_attempt rm blocks
    let best' :=
      if best.count < r.scheduled_count ∨
          (r.scheduled_count = best.count ∧ Q.lt best.score r.score) then
        BestSt.mk r.assignments r.score r.scheduled_count
      else best
    if r.scheduled_count = total ∧ Q.le (Q.mk 19 20) r.score then (best', 1)
    else
      let rest := attempt_loop rm blocks total n best'
      (rest.1, rest.2 + 1)

def noScheduleMsg : String := "Could not find a valid schedule"

/-- `schedule_blocks`: convert to blocks, run the attempt loop from the
empty best, raise (`Except.error`) when no attempt stored anything. -/
def schedule_blocks (rm : ResourceManager)
    (inputs : List (CourseAssignment × StudyPlan)) (max_attempts : Nat) :
    Except String (List (String × Assignment)) :=
  let blocks := convert_course_assignments_to_blocks inputs
  let total := blocks.length
  let best := (attempt_loop rm blocks total max_attempts (BestSt.mk [] (Q.ofNat 0) 0)).1
  if best.assignments.isEmpty then Except.error noScheduleMsg
  else Except.ok best.assignments

/-! ### Invariants and reachability -/

/-- The keys of an association list. -/
def akeys (l : List (κ × ν)) : List κ := l.map Prod.fst

/-- States reachable from the empty state by any sequence of
`make_assignment` (successful or not) and `initialize_fresh_state`
calls. -/
inductive Reachable : CM → Prop where
  | init : Reachable CM.empty
  | step (cm : CM) (bid : String) (a : Assignment) :
      Reachable cm → Reachable (make_assignment cm bid a).2
  | reset (cm : CM) : Reachable cm → Reachable CM.empty

/-- Mutual consistency of the booking indices with the assignments map —
the inductive invariant behind the no-double-booking claims. -/
structure Inv (cm : CM) : Prop where
  as_nodup : (akeys cm.current_assignments).Nodup
  rb_nodup : (akeys cm.room_bookings).Nodup
  sb_nodup : (akeys cm.staff_bookings).Nodup
  rb_complete : ∀ bid a, (bid, a) ∈ cm.current_assignments →
    alookup (room_slot_of a) cm.room_bookings = some bid
  rb_sound : ∀ k bid, alookup k cm.room_bookings = some bid →
    ∃ a, (bid, a) ∈ cm.current_assignments ∧ room_slot_of a = k
  sb_complete : ∀ bid a, (bid, a) ∈ cm.current_assignments →
    alookup (staff_slot_of a) cm.staff_bookings = some bid
  sb_sound : ∀ k bid, alookup k cm.staff_bookings = some bid →
    ∃ a, (bid, a) ∈ cm.current_assignments ∧ staff_slot_of a = k
  sp_complete : ∀ bid a, (bid, a) ∈ cm.current_assignments →
    ∃ bids, alookup (sp_key_of a) cm.study_plan_slots = some bids ∧ bid ∈ bids
  sp_sound : ∀ k bids bid, alookup k cm.study_plan_slots = some bids → bid ∈ bids →
    ∃ a, (bid, a) ∈ cm.current_assignments ∧ sp_key_of a = k

/-- No double booking: distinct recorded assignments never share a
`(room_key, slot)` or a `(staff_id, slot)`, and the room/staff indices
record at most one block id per key. -/
def NoDoubleBooking (cm : CM) : Prop :=
  (∀ bid1 a1 bid2 a2, (bid1, a1) ∈ cm.current_assignments →
    (bid2, a2) ∈ cm.current_assignments → room_slot_of a1 = room_slot_of a2 →
    bid1 = bid2 ∧ a1 = a2) ∧
  (∀ bid1 a1 bid2 a2, (bid1, a1) ∈ cm.current_assignments →
    (bid2, a2) ∈ cm.current_assignments → staff_slot_of a1 = staff_slot_of a2 →
    bid1 = bid2 ∧ a1 = a2) ∧
  (akeys cm.room_bookings).Nodup ∧ (akeys cm.staff_bookings).Nodup

/-- The cohort property the commit check actually maintains: two distinct
assignments of the same study plan at the same `(day, start)` involve no
single-group block, and when they belong to the same course both sides
have more than one group. -/
def CohortOK (A : List (String × Assignment)) : Prop :=
  ∀ p1 ∈ A, ∀ p2 ∈ A, p1.1 ≠ p2.1 → sp_key_of p1.2 = sp_key_of p2.2 →
    p1.2.block.is_single_group_course = false ∧
      p2.2.block.is_single_group_course = false ∧
      (p1.2.block.course_code = p2.2.block.course_code →
        p1.2.block.total_groups ≠ 1 ∧ p2.2.block.total_groups ≠ 1)

/-- Facts about every block the converter emits, used when tracing a
committed assignment back to the inputs. -/
def BlockWF (inputs : List (CourseAssignment × StudyPlan)) (b : Block) : Prop :=
  b.course_code = b.course_object.course_code ∧
  (b.required_room_type = hallTag ∨ b.required_room_type = labTag) ∧
  (b.preferred_rooms = [] ∨
    ∃ p ∈ inputs, b.preferred_rooms = p.1.preferred_labs.map Room.lab)

/-- Invariant of the per-attempt placement loop: index consistency plus
the per-assignment facts every commit of the engine establishes. -/
structure EngInv (rm : ResourceManager) (B : List Block) (cm : CM) : Prop where
  inv : Inv cm
  ids : ∀ p ∈ cm.current_assignments, p.1 = p.2.block.id
  blocksrc : ∀ p ∈ cm.current_assignments, p.2.block ∈ B
  labreq : ∀ p ∈ cm.current_assignments,
    check_lab_requirements p.2.block p.2.time_slot p.2.room = true
  availk : ∀ p ∈ cm.current_assignments, ∃ s ∈ p.2.room.availability,
    s.day = p.2.time_slot.day ∧ s.start_time = p.2.time_slot.start_time
  lectpref : ∀ p ∈ cm.current_assignments, ∀ m,
    p.2.block.staff_member = Staff.lecturer m →
    ∃ s ∈ m.timing_preferences,
      s.day = p.2.time_slot.day ∧ s.start_time = p.2.time_slot.start_time
  roomsrc : ∀ p ∈ cm.current_assignments,
    (∃ h ∈ rm.halls, p.2.room = Room.hall h) ∨
      (∃ l ∈ rm.labs, p.2.room = Room.lab l) ∨
      p.2.room ∈ p.2.block.preferred_rooms
  cohort : CohortOK cm.current_assignments

/-- The room set the candidate enumeration may draw from, as a property
of a single room (claim C6's "kind-appropriate"). -/
def kind_appropriate (rm : ResourceManager) (block : Block) (r : Room) : Prop :=
  (block.required_room_type = labTag ∧ block.preferred_rooms ≠ [] ∧
    r ∈ block.preferred_rooms) ∨
  (block.required_room_type = labTag ∧ block.preferred_rooms = [] ∧
    ∃ l ∈ rm.labs, r = Room.lab l ∧ l.used_in_non_specialist_courses = true) ∨
  (block.required_room_type ≠ labTag ∧ ∃ h ∈ rm.halls, r = Room.hall h)

/-! ### Spec-side checkers for the corrected claims

These two definitions follow the words of claims C3 and C4 (not the
source), to be evaluated against schedules the embedded code produces. -/

/-- Two assignments address the same `(academic_list, academic_level,
day, start_time)` cohort key (the key used by claims C3/P6). -/
def cohortKeyEq (a b : Assignment) : Bool :=
  decide (a.block.academic_list = b.block.academic_list) &&
    decide (a.block.academic_level = b.block.academic_level) &&
    decide (a.time_slot.day = b.time_slot.day) &&
    decide (a.time_slot.start_time = b.time_slot.start_time)

/-- Claim C3 as stated: at every cohort key, a single-group block is
alone, and several blocks all share the course code and differ in group
number — pairwise, two distinct assignments at one key must be non-single,
same-course and differently-numbered. -/
def claim_c3_holds (out : List (String × Assignment)) : Bool :=
  lall (fun p1 => lall (fun p2 =>
    !(decide (p1.1 ≠ p2.1) && cohortKeyEq p1.2 p2.2) ||
      (!p1.2.block.is_single_group_course && !p2.2.block.is_single_group_course &&
        decide (p1.2.block.course_code = p2.2.block.course_code) &&
        decide (p1.2.block.group_number ≠ p2.2.block.group_number))) out) out

/-- Claim C4 as stated: room kind matches the required type, a non-empty
`preferred_rooms` always contains the room, and a specialist-only lab is
only used with `preferred_rooms` set. -/
def claim_c4_holds (out : List (String × Assignment)) : Bool :=
  lall (fun p =>
    decide ((get_room_key p.2.room).1 = p.2.block.required_room_type) &&
      (p.2.block.preferred_rooms.isEmpty || lmem p.2.room p.2.block.preferred_rooms) &&
      (match p.2.room with
        | .lab l => l.used_in_non_specialist_courses || !p.2.block.preferred_rooms.isEmpty
        | .hall _ => true)) out

/-! ### Concrete data for the counterexamples and witnesses -/

def sun9 : TimePreference := ⟨Day.sunday, ⟨9, 0⟩, ⟨11, 0⟩⟩

def sun11 : TimePreference := ⟨Day.sunday, ⟨11, 0⟩, ⟨13, 0⟩⟩

def tue9 : TimePreference := ⟨Day.tuesday, ⟨9, 0⟩, ⟨11, 0⟩⟩

def deptCS : String := "CS"

def prefsSun : List TimePreference := [sun9, sun11]

def lecX : StaffMember := ⟨1, "X", deptCS, prefsSun, 1, true⟩

def lecY : StaffMember := ⟨2, "Y", deptCS, prefsSun, 1, true⟩

def lecZ : StaffMember := ⟨3, "Z", deptCS, prefsSun, 1, true⟩

def lecW : StaffMember := ⟨4, "V", deptCS, prefsSun, 1, true⟩

def alCS : AcademicList := ⟨1, deptCS, deptCS⟩

def spCS : StudyPlan := ⟨"CS-L1", alCS, 1, 40⟩

def hall1 : Hall := ⟨1, "H1", 25, prefsSun⟩

def hall2 : Hall := ⟨2, "H2", 25, prefsSun⟩

def courseCodeA : String := "A"

def courseCodeB : String := "B"

/-- Two-group course A taught by two lecturers. -/
def courseA : CourseAssignment :=
  ⟨101, courseCodeA, 2, [⟨lecX, 1⟩, ⟨lecY, 1⟩], 0, [], true, [], false⟩

/-- Two-group course B taught by two other lecturers. -/
def courseB : CourseAssignment :=
  ⟨102, courseCodeB, 2, [⟨lecZ, 1⟩, ⟨lecW, 1⟩], 0, [], true, [], false⟩

def rmC3 : ResourceManager := ⟨[hall1, hall2], [], 2, 0⟩

def inputsC3 : List (CourseAssignment × StudyPlan) := [(courseA, spCS), (courseB, spCS)]

/-- The concrete run refuting claim C3: both courses end up in the same
cohort slot with different course codes. -/
def c3_claim_refuted : Bool :=
  match schedule_blocks rmC3 inputsC3 1 with
  | .ok out => !claim_c3_holds out
  | .error _ => false

def lecM : StaffMember := ⟨21, "M", deptCS, prefsSun, 1, true⟩

def taT : StaffMember := ⟨20, "T", deptCS, [sun9], 4, true⟩

def labL : Lab := ⟨4, "L407", 36, prefsSun, LabType.specialist, true⟩

def hallC : Hall := ⟨3, "HC", 30, prefsSun⟩

def spC : StudyPlan := ⟨"CS-L2", alCS, 2, 20⟩

def courseCodeC : String := "C"

/-- Course C has one lecture group and one lab group; the practicals are
held in halls (`practical_in_lab = false`) yet `preferred_labs` is set. -/
def courseC : CourseAssignment :=
  ⟨103, courseCodeC, 1, [⟨lecM, 1⟩], 1, [⟨taT, 1⟩], false, [labL], false⟩

def rmC4 : ResourceManager := ⟨[hallC], [labL], 2, 0⟩

def inputsC4 : List (CourseAssignment × StudyPlan) := [(courseC, spC)]

/-- The concrete run refuting claim C4: the lab block of course C is
placed in a hall although its `preferred_rooms` list is non-empty. -/
def c4_claim_refuted : Bool :=
  match schedule_blocks rmC4 inputsC4 1 with
  | .ok out => !claim_c4_holds out
  | .error _ => false

def spW : StudyPlan := ⟨"CS-L3", alCS, 3, 20⟩

def lecN : StaffMember := ⟨30, "N", deptCS, [sun9], 1, true⟩

def courseCodeW : String := "S"

/-- A trivial single-lecture course for the witnesses. -/
def courseW : CourseAssignment :=
  ⟨104, courseCodeW, 1, [⟨lecN, 1⟩], 0, [], true, [], false⟩

def hallW : Hall := ⟨7, "HW", 25, [sun9]⟩

def rmW : ResourceManager := ⟨[hallW], [], 2, 0⟩

def inputsW : List (CourseAssignment × StudyPlan) := [(courseW, spW)]

/-- The single block the witness inputs expand to. -/
def blockW : Block := mk_lecture_block courseW spW lecN 1

def assignW : Assignment := ⟨blockW, sun9, Room.hall hallW⟩

/-- A state with one committed assignment, for the state-machine
witnesses. -/
def cmW : CM := (make_assignment CM.empty blockW.id assignW).2

def hallW2 : Hall := ⟨8, "HV", 25, [tue9]⟩

def lecN2 : StaffMember := ⟨31, "N2", deptCS, [sun9], 1, true⟩

def courseCodeW2 : String := "S2"

def courseW2 : CourseAssignment :=
  ⟨105, courseCodeW2, 1, [⟨lecN2, 1⟩], 0, [], true, [], false⟩

def blockW2 : Block := mk_lecture_block courseW2 spW lecN2 1

/-- An assignment violating room availability (H3, `hallW2` is only free
Tuesday) and the single-group cohort rule (H4, `blockW` is single-group
and sits at the same cohort slot), but double-booking nothing. -/
def assignW2 : Assignment := ⟨blockW2, sun9, Room.hall hallW2⟩

/-- The schedule the C3 counterexample inputs produce. -/
def outC3 : List (String × Assignment) :=
  (run_attempt rmC3 (convert_course_assignments_to_blocks inputsC3)).assignments

/-- First assignment of `outC3` (course A, Sunday 09:00). -/
def entC3a : String × Assignment := outC3.getD 0 (blockW.id, assignW)

/-- Third assignment of `outC3` (course B, also Sunday 09:00). -/
def entC3b : String × Assignment := outC3.getD 2 (blockW.id, assignW)

/-- The schedule the C4 counterexample inputs produce. -/
def outC4 : List (String × Assignment) :=
  (run_attempt rmC4 (convert_course_assignments_to_blocks inputsC4)).assignments

/-- Second assignment of `outC4`: the lab block, placed in a hall. -/
def outC4ent : String × Assignment := outC4.getD 1 (blockW.id, assignW)

/-- The schedule the witness inputs produce. -/
def outW : List (String × Assignment) :=
  (run_attempt rmW (convert_course_assignments_to_blocks inputsW)).assignments

/-- The single assignment of `outW`. -/
def entW : String × Assignment := outW.getD 0 (blockW.id, assignW)

/-! ## Theorems

First a layer of helper lemmas about the list primitives, then the
invariant development, then one theorem (plus witness or counterexample)
per claim. -/

theorem lmem_cons [DecidableEq α] (x y : α) (l : List α) :
    lmem x (y :: l) = if y = x then true else lmem x l := rfl

theorem lmem_iff [DecidableEq α] {x : α} {l : List α} : lmem x l = true ↔ x ∈ l := by
  induction l with
  | nil => simp [lmem]
  | cons y ys ih =>
    rw [lmem_cons]
    by_cases h : y = x
    · subst h; simp
    · rw [if_neg h, ih, List.mem_cons]
      constructor
      · exact Or.inr
      · rintro (rfl | hm)
        · exact absurd rfl h
        · exact hm

theorem lall_cons (p : α → Bool) (x : α) (l : List α) :
    lall p (x :: l) = (p x && lall p l) := rfl

theorem lall_iff {p : α → Bool} {l : List α} : lall p l = true ↔ ∀ x ∈ l, p x = true := by
  induction l with
  | nil => simp [lall]
  | cons y ys ih => simp [lall_cons, ih]

theorem lfind_cons (p : α → Bool) (x : α) (l : List α) :
    lfind p (x :: l) = if p x then some x else lfind p l := rfl

theorem lfind_some {p : α → Bool} {l : List α} {x : α} (h : lfind p l = some x) :
    x ∈ l ∧ p x = true := by
  induction l with
  | nil => simp [lfind] at h
  | cons y ys ih =>
    rw [lfind_cons] at h
    by_cases hy : p y
    · rw [if_pos hy] at h
      injection h with h
      subst h
      exact ⟨List.mem_cons_self _ _, hy⟩
    · rw [if_neg hy] at h
      rcases ih h with ⟨hmem, hp⟩
      exact ⟨List.mem_cons_of_mem _ hmem, hp⟩

theorem alookup_cons [DecidableEq κ] (k k' : κ) (v : ν) (l : List (κ × ν)) :
    alookup k ((k', v) :: l) = if k' = k then some v else alookup k l := rfl

theorem aset_cons [DecidableEq κ] (k k' : κ) (v v' : ν) (l : List (κ × ν)) :
    aset k v ((k', v') :: l) =
      if k' = k then (k, v) :: l else (k', v') :: aset k v l := rfl

theorem alookup_mem [DecidableEq κ] {k : κ} {v : ν} {l : List (κ × ν)}
    (h : alookup k l = some v) : (k, v) ∈ l := by
  induction l with
  | nil => simp [alookup] at h
  | cons p rest ih =>
    rcases p with ⟨k', v'⟩
    rw [alookup_cons] at h
    by_cases hk : k' = k
    · rw [if_pos hk] at h
      injection h with h
      subst hk; subst h
      exact List.mem_cons_self _ _
    · rw [if_neg hk] at h
      exact List.mem_cons_of_mem _ (ih h)

theorem alookup_eq_none [DecidableEq κ] {k : κ} {l : List (κ × ν)} :
    alookup k l = none ↔ k ∉ akeys l := by
  induction l with
  | nil => simp [alookup, akeys]
  | cons p rest ih =>
    rcases p with ⟨k', v'⟩
    rw [alookup_cons]
    by_cases hk : k' = k
    · subst hk; simp [akeys]
    · rw [if_neg hk, ih]
      simp only [akeys, List.map_cons, List.mem_cons]
      constructor
      · intro h hm
        rcases hm with hm | hm
        · exact hk hm.symm
        · exact h hm
      · intro h hm
        exact h (Or.inr hm)

theorem mem_alookup [DecidableEq κ] {k : κ} {v : ν} {l : List (κ × ν)}
    (hnd : (akeys l).Nodup) (h : (k, v) ∈ l) : alookup k l = some v := by
  induction l with
  | nil => simp at h
  | cons p rest ih =>
    rcases p with ⟨k', v'⟩
    simp only [akeys, List.map_cons, List.nodup_cons] at hnd
    rw [alookup_cons]
    rcases List.mem_cons.mp h with heq | hmem
    · injection heq with h1 h2
      subst h1; subst h2
      rw [if_pos rfl]
    · have hk : k' ≠ k := by
        intro he
        subst he
        exact hnd.1 (by simpa [akeys] using List.mem_map_of_mem Prod.fst hmem)
      rw [if_neg hk]
      exact ih hnd.2 hmem

theorem alookup_aset_self [DecidableEq κ] (k : κ) (v : ν) (l : List (κ × ν)) :
    alookup k (aset k v l) = some v := by
  induction l with
  | nil => simp [aset, alookup_cons]
  | cons p rest ih =>
    rcases p with ⟨k', v'⟩
    rw [aset_cons]
    by_cases hk : k' = k
    · rw [if_pos hk, alookup_cons, if_pos rfl]
    · rw [if_neg hk, alookup_cons, if_neg hk]
      exact ih

theorem alookup_aset_ne [DecidableEq κ] {k k' : κ} (v : ν) (l : List (κ × ν))
    (h : k' ≠ k) : alookup k' (aset k v l) = alookup k' l := by
  induction l with
  | nil =>
    show alookup k' [(k, v)] = none
    rw [alookup_cons, if_neg (Ne.symm h)]
    rfl
  | cons p rest ih =>
    rcases p with ⟨kp, vp⟩
    rw [aset_cons]
    by_cases hp : kp = k
    · subst hp
      rw [if_pos rfl, alookup_cons, alookup_cons, if_neg (Ne.symm h),
        if_neg (Ne.symm h)]
    · rw [if_neg hp, alookup_cons, alookup_cons]
      by_cases hpk : kp = k'
      · rw [if_pos hpk, if_pos hpk]
      · rw [if_neg hpk, if_neg hpk, ih]

theorem aset_fresh [DecidableEq κ] {k : κ} (v : ν) {l : List (κ × ν)}
    (h : alookup k l = none) : aset k v l = l ++ [(k, v)] := by
  induction l with
  | nil => rfl
  | cons p rest ih =>
    rcases p with ⟨k', v'⟩
    rw [alookup_cons] at h
    by_cases hk : k' = k
    · rw [if_pos hk] at h; cases h
    · rw [if_neg hk] at h
      rw [aset_cons, if_neg hk, ih h]
      rfl

theorem mem_akeys_aset [DecidableEq κ] {k k' : κ} {v : ν} {l : List (κ × ν)} :
    k' ∈ akeys (aset k v l) ↔ k' ∈ akeys l ∨ k' = k := by
  induction l with
  | nil => simp [aset, akeys]
  | cons p rest ih =>
    rcases p with ⟨kp, vp⟩
    rw [aset_cons]
    by_cases hp : kp = k
    · subst hp
      rw [if_pos rfl]
      simp only [akeys, List.map_cons, List.mem_cons]
      constructor
      · rintro (h | h)
        · exact Or.inr h
        · exact Or.inl (Or.inr h)
      · rintro ((h | h) | h)
        · subst h; exact Or.inl rfl
        · exact Or.inr h
        · subst h; exact Or.inl rfl
    · rw [if_neg hp]
      simp only [akeys, List.map_cons, List.mem_cons] at ih ⊢
      constructor
      · rintro (h | h)
        · exact Or.inl (Or.inl h)
        · rcases ih.mp h with h2 | h2
          · exact Or.inl (Or.inr h2)
          · exact Or.inr h2
      · rintro ((h | h) | h)
        · exact Or.inl h
        · exact Or.inr (ih.mpr (Or.inl h))
        · exact Or.inr (ih.mpr (Or.inr h))

theorem akeys_aset_nodup [DecidableEq κ] {k : κ} {v : ν} {l : List (κ × ν)}
    (h : (akeys l).Nodup) : (akeys (aset k v l)).Nodup := by
  induction l with
  | nil => simp [aset, akeys]
  | cons p rest ih =>
    rcases p with ⟨kp, vp⟩
    simp only [akeys, List.map_cons, List.nodup_cons] at h
    rcases h with ⟨hnot, hnd⟩
    rw [aset_cons]
    by_cases hp : kp = k
    · subst hp
      rw [if_pos rfl]
      simp only [akeys, List.map_cons, List.nodup_cons]
      exact ⟨hnot, hnd⟩
    · rw [if_neg hp]
      simp only [akeys, List.map_cons, List.nodup_cons]
      refine ⟨?_, ih hnd⟩
      intro hmem
      rcases mem_akeys_aset.mp hmem with hm | hm
      · exact hnot hm
      · exact hp hm

theorem mem_aset [DecidableEq κ] {k : κ} {v : ν} {l : List (κ × ν)} {p : κ × ν}
    (h : p ∈ aset k v l) : p = (k, v) ∨ p ∈ l := by
  induction l with
  | nil => simpa [aset] using h
  | cons q rest ih =>
    rcases q with ⟨kq, vq⟩
    rw [aset_cons] at h
    by_cases hq : kq = k
    · rw [if_pos hq] at h
      rcases List.mem_cons.mp h with h | h
      · exact Or.inl h
      · exact Or.inr (List.mem_cons_of_mem _ h)
    · rw [if_neg hq] at h
      rcases List.mem_cons.mp h with h | h
      · exact Or.inr (h ▸ List.mem_cons_self _ _)
      · rcases ih h with h | h
        · exact Or.inl h
        · exact Or.inr (List.mem_cons_of_mem _ h)

theorem nodup_mem_unique [DecidableEq κ] {k : κ} {v1 v2 : ν} {l : List (κ × ν)}
    (hnd : (akeys l).Nodup) (h1 : (k, v1) ∈ l) (h2 : (k, v2) ∈ l) : v1 = v2 := by
  have e1 := mem_alookup hnd h1
  have e2 := mem_alookup hnd h2
  exact Option.some.inj (e1.symm.trans e2)

theorem mem_insertBy {le : α → α → Bool} {x y : α} {l : List α} :
    y ∈ insertBy le x l ↔ y = x ∨ y ∈ l := by
  induction l with
  | nil => simp [insertBy]
  | cons z zs ih =>
    show y ∈ (if le x z then x :: z :: zs else z :: insertBy le x zs) ↔ _
    by_cases h : le x z
    · rw [if_pos h]
      simp [List.mem_cons]
    · rw [if_neg h]
      simp only [List.mem_cons, ih]
      tauto

theorem mem_sortBy {le : α → α → Bool} {y : α} {l : List α} :
    y ∈ sortBy le l ↔ y ∈ l := by
  induction l with
  | nil => simp [sortBy]
  | cons z zs ih =>
    show y ∈ insertBy le z (sortBy le zs) ↔ _
    rw [mem_insertBy, ih, List.mem_cons]

theorem pairwise_insertBy {le : α → α → Bool}
    (htot : ∀ a b, le a b = true ∨ le b a = true)
    (htrans : ∀ a b c, le a b = true → le b c = true → le a c = true)
    {x : α} {l : List α} (h : l.Pairwise (fun a b => le a b = true)) :
    (insertBy le x l).Pairwise (fun a b => le a b = true) := by
  induction l with
  | nil => simp [insertBy]
  | cons z zs ih =>
    rcases List.pairwise_cons.mp h with ⟨hz, hzs⟩
    show (if le x z then x :: z :: zs else z :: insertBy le x zs).Pairwise _
    by_cases hle : le x z
    · rw [if_pos hle]
      refine List.pairwise_cons.mpr ⟨?_, h⟩
      intro b hb
      rcases List.mem_cons.mp hb with rfl | hb
      · exact hle
      · exact htrans x z b hle (hz b hb)
    · rw [if_neg hle]
      refine List.pairwise_cons.mpr ⟨?_, ih hzs⟩
      intro b hb
      rcases mem_insertBy.mp hb with rfl | hb
      · rcases htot z b with h2 | h2
        · exact h2
        · exact absurd h2 (by simpa using hle)
      · exact hz b hb

theorem pairwise_sortBy {le : α → α → Bool}
    (htot : ∀ a b, le a b = true ∨ le b a = true)
    (htrans : ∀ a b c, le a b = true → le b c = true → le a c = true)
    (l : List α) : (sortBy le l).Pairwise (fun a b => le a b = true) := by
  induction l with
  | nil => simp [sortBy]
  | cons z zs ih => exact pairwise_insertBy htot htrans ih

theorem mem_dedupFirstAux [DecidableEq α] {x : α} {l seen : List α} :
    x ∈ dedupFirstAux seen l ↔ x ∈ l ∧ x ∉ seen := by
  induction l generalizing seen with
  | nil => simp [dedupFirstAux]
  | cons y ys ih =>
    show x ∈ (if lmem y seen then dedupFirstAux seen ys
      else y :: dedupFirstAux (y :: seen) ys) ↔ _
    by_cases h : lmem y seen
    · rw [if_pos h]
      rw [ih]
      simp only [List.mem_cons]
      constructor
      · rintro ⟨hm, hs⟩
        exact ⟨Or.inr hm, hs⟩
      · rintro ⟨hm | hm, hs⟩
        · subst hm
          exact absurd (lmem_iff.mp h) hs
        · exact ⟨hm, hs⟩
    · rw [if_neg h]
      simp only [List.mem_cons, ih, List.mem_cons]
      constructor
      · rintro (rfl | ⟨hm, hs⟩)
        · exact ⟨Or.inl rfl, fun hxs => h (lmem_iff.mpr hxs)⟩
        · exact ⟨Or.inr hm, fun hxs => hs (Or.inr hxs)⟩
      · rintro ⟨hm | hm, hs⟩
        · exact Or.inl hm
        · by_cases hxy : x = y
          · exact Or.inl hxy
          · exact Or.inr ⟨hm, fun hc => (by
              rcases hc with hc | hc
              · exact hxy hc
              · exact hs hc)⟩

theorem mem_dedupFirst [DecidableEq α] {x : α} {l : List α} :
    x ∈ dedupFirst l ↔ x ∈ l := by
  rw [dedupFirst, mem_dedupFirstAux]
  simp

/-! ### `make_assignment` characterisation -/

theorem make_assignment_eq (cm : CM) (bid : String) (a : Assignment) :
    make_assignment cm bid a =
      if commit_ok cm bid a then (true, apply_add cm bid a) else (false, cm) := by
  by_cases h1 : alookup bid cm.current_assignments = none
  · by_cases h2 : verify_no_conflicts_before_commit cm a = true
    · by_cases h3 : alookup (room_slot_of a) cm.room_bookings = none
      · by_cases h4 : alookup (staff_slot_of a) cm.staff_bookings = none
        · rw [if_pos ⟨h1, h2, h3, h4⟩]
          simp [make_assignment, add_to_state, h1, h2, h3, h4]
        · rw [if_neg (fun hc => h4 hc.2.2.2)]
          rcases Option.ne_none_iff_exists'.mp h4 with ⟨v, hv⟩
          simp [make_assignment, add_to_state, h1, h2, h3, hv]
      · rw [if_neg (fun hc => h3 hc.2.2.1)]
        rcases Option.ne_none_iff_exists'.mp h3 with ⟨v, hv⟩
        simp [make_assignment, add_to_state, h1, h2, hv]
    · rw [if_neg (fun hc => h2 hc.2.1)]
      have h2' : verify_no_conflicts_before_commit cm a = false := by
        cases h : verify_no_conflicts_before_commit cm a
        · rfl
        · exact absurd h h2
      simp [make_assignment, add_to_state, h1, h2']
  · rw [if_neg (fun hc => h1 hc.1)]
    rcases Option.ne_none_iff_exists'.mp h1 with ⟨v, hv⟩
    simp [make_assignment, hv]

theorem make_assignment_success {cm : CM} {bid : String} {a : Assignment}
    (h : commit_ok cm bid a) : make_assignment cm bid a = (true, apply_add cm bid a) := by
  rw [make_assignment_eq, if_pos h]

theorem make_assignment_fail {cm : CM} {bid : String} {a : Assignment}
    (h : ¬commit_ok cm bid a) : make_assignment cm bid a = (false, cm) := by
  rw [make_assignment_eq, if_neg h]

/-! ### The index-consistency invariant -/

theorem inv_empty : Inv CM.empty := by
  refine ⟨?_, ?_, ?_, ?_, ?_, ?_, ?_, ?_, ?_⟩ <;>
    simp [CM.empty, akeys, alookup]

theorem apply_add_current (cm : CM) (bid : String) (a : Assignment) :
    (apply_add cm bid a).current_assignments = aset bid a cm.current_assignments := rfl

theorem apply_add_rb (cm : CM) (bid : String) (a : Assignment) :
    (apply_add cm bid a).room_bookings =
      aset (room_slot_of a) bid cm.room_bookings := rfl

theorem apply_add_sb (cm : CM) (bid : String) (a : Assignment) :
    (apply_add cm bid a).staff_bookings =
      aset (staff_slot_of a) bid cm.staff_bookings := rfl

theorem apply_add_sp (cm : CM) (bid : String) (a : Assignment) :
    (apply_add cm bid a).study_plan_slots =
      aset (sp_key_of a)
        ((alookup (sp_key_of a) cm.study_plan_slots).getD [] ++ [bid])
        cm.study_plan_slots := rfl

theorem inv_apply_add {cm : CM} {bid : String} {a : Assignment}
    (hinv : Inv cm) (h : commit_ok cm bid a) : Inv (apply_add cm bid a) := by
  obtain ⟨hfresh, hver, hrb, hsb⟩ := h
  have hcur : (apply_add cm bid a).current_assignments =
      cm.current_assignments ++ [(bid, a)] := by
    rw [apply_add_current, aset_fresh a hfresh]
  refine ⟨?_, ?_, ?_, ?_, ?_, ?_, ?_, ?_, ?_⟩
  · -- as_nodup
    rw [hcur]
    have : akeys (cm.current_assignments ++ [(bid, a)]) =
        akeys cm.current_assignments ++ [bid] := by simp [akeys]
    rw [this, List.nodup_append]
    refine ⟨hinv.as_nodup, List.nodup_singleton _, ?_⟩
    intro x hx hx2
    rcases List.mem_singleton.mp hx2 with rfl
    exact alookup_eq_none.mp hfresh hx
  · -- rb_nodup
    rw [apply_add_rb]
    exact akeys_aset_nodup hinv.rb_nodup
  · -- sb_nodup
    rw [apply_add_sb]
    exact akeys_aset_nodup hinv.sb_nodup
  · -- rb_complete
    intro bid' a' hmem
    rw [hcur] at hmem
    rw [apply_add_rb]
    rcases List.mem_append.mp hmem with hold | hnew
    · by_cases hk : room_slot_of a' = room_slot_of a
      · have := hinv.rb_complete _ _ hold
        rw [hk, hrb] at this
        cases this
      · rw [alookup_aset_ne _ _ hk]
        exact hinv.rb_complete _ _ hold
    · rcases List.mem_singleton.mp hnew
      rw [alookup_aset_self]
  · -- rb_sound
    intro k b hlook
    rw [apply_add_rb] at hlook
    by_cases hk : k = room_slot_of a
    · subst hk
      rw [alookup_aset_self] at hlook
      rcases Option.some.inj hlook
      exact ⟨a, by rw [hcur]; exact List.mem_append_right _ (List.mem_singleton.mpr rfl), rfl⟩
    · rw [alookup_aset_ne _ _ hk] at hlook
      rcases hinv.rb_sound k b hlook with ⟨a', hm, hkey⟩
      exact ⟨a', by rw [hcur]; exact List.mem_append_left _ hm, hkey⟩
  · -- sb_complete
    intro bid' a' hmem
    rw [hcur] at hmem
    rw [apply_add_sb]
    rcases List.mem_append.mp hmem with hold | hnew
    · by_cases hk : staff_slot_of a' = staff_slot_of a
      · have := hinv.sb_complete _ _ hold
        rw [hk, hsb] at this
        cases this
      · rw [alookup_aset_ne _ _ hk]
        exact hinv.sb_complete _ _ hold
    · rcases List.mem_singleton.mp hnew
      rw [alookup_aset_self]
  · -- sb_sound
    intro k b hlook
    rw [apply_add_sb] at hlook
    by_cases hk : k = staff_slot_of a
    · subst hk
      rw [alookup_aset_self] at hlook
      rcases Option.some.inj hlook
      exact ⟨a, by rw [hcur]; exact List.mem_append_right _ (List.mem_singleton.mpr rfl), rfl⟩
    · rw [alookup_aset_ne _ _ hk] at hlook
      rcases hinv.sb_sound k b hlook with ⟨a', hm, hkey⟩
      exact ⟨a', by rw [hcur]; exact List.mem_append_left _ hm, hkey⟩
  · -- sp_complete
    intro bid' a' hmem
    rw [hcur] at hmem
    rw [apply_add_sp]
    rcases List.mem_append.mp hmem with hold | hnew
    · rcases hinv.sp_complete _ _ hold with ⟨bids, hb, hbin⟩
      by_cases hk : sp_key_of a' = sp_key_of a
      · rw [hk] at hb ⊢
        rw [alookup_aset_self]
        exact ⟨_, rfl, by rw [hb]; exact List.mem_append_left _ hbin⟩
      · rw [alookup_aset_ne _ _ hk]
        exact ⟨bids, hb, hbin⟩
    · rcases List.mem_singleton.mp hnew
      rw [alookup_aset_self]
      exact ⟨_, rfl, List.mem_append_right _ (List.mem_singleton.mpr rfl)⟩
  · -- sp_sound
    intro k bids bid' hlook hbin
    rw [apply_add_sp] at hlook
    by_cases hk : k = sp_key_of a
    · subst hk
      rw [alookup_aset_self] at hlook
      rcases Option.some.inj hlook
      rcases List.mem_append.mp hbin with hinold | hinnew
      · cases halo : alookup (sp_key_of a) cm.study_plan_slots with
        | none => rw [halo] at hinold; simp at hinold
        | some oldbids =>
          rw [halo] at hinold
          simp only [Option.getD_some] at hinold
          rcases hinv.sp_sound _ _ _ halo hinold with ⟨a', hm, hkey⟩
          exact ⟨a', by rw [hcur]; exact List.mem_append_left _ hm, hkey⟩
      · rcases List.mem_singleton.mp hinnew
        exact ⟨a, by rw [hcur]; exact List.mem_append_right _ (List.mem_singleton.mpr rfl), rfl⟩
    · rw [alookup_aset_ne _ _ hk] at hlook
      rcases hinv.sp_sound k bids bid' hlook hbin with ⟨a', hm, hkey⟩
      exact ⟨a', by rw [hcur]; exact List.mem_append_left _ hm, hkey⟩

theorem inv_step {cm : CM} (bid : String) (a : Assignment) (hinv : Inv cm) :
    Inv (make_assignment cm bid a).2 := by
  rw [make_assignment_eq]
  by_cases h : commit_ok cm bid a
  · rw [if_pos h]
    exact inv_apply_add hinv h
  · rw [if_neg h]
    exact hinv

theorem reachable_inv {cm : CM} (h : Reachable cm) : Inv cm := by
  induction h with
  | init => exact inv_empty
  | step cm bid a _ ih => exact inv_step bid a ih
  | reset cm _ _ => exact inv_empty

theorem inv_noDoubleBooking {cm : CM} (hinv : Inv cm) : NoDoubleBooking cm := by
  refine ⟨?_, ?_, hinv.rb_nodup, hinv.sb_nodup⟩
  · intro b1 a1 b2 a2 h1 h2 hkey
    have e1 := hinv.rb_complete _ _ h1
    have e2 := hinv.rb_complete _ _ h2
    rw [hkey] at e1
    have hb : b1 = b2 := Option.some.inj (e1.symm.trans e2)
    subst hb
    exact ⟨rfl, nodup_mem_unique hinv.as_nodup h1 h2⟩
  · intro b1 a1 b2 a2 h1 h2 hkey
    have e1 := hinv.sb_complete _ _ h1
    have e2 := hinv.sb_complete _ _ h2
    rw [hkey] at e1
    have hb : b1 = b2 := Option.some.inj (e1.symm.trans e2)
    subst hb
    exact ⟨rfl, nodup_mem_unique hinv.as_nodup h1 h2⟩

theorem lfind_eq_none {p : α → Bool} {l : List α} :
    lfind p l = none ↔ ∀ x ∈ l, p x = false := by
  induction l with
  | nil => simp [lfind]
  | cons y ys ih =>
    rw [lfind_cons]
    by_cases hy : p y
    · rw [if_pos hy]
      simp only [List.mem_cons]
      constructor
      · intro h; cases h
      · intro h
        have := h y (Or.inl rfl)
        rw [hy] at this; cases this
    · rw [if_neg hy, ih]
      simp only [List.mem_cons]
      constructor
      · intro h x hx
        rcases hx with rfl | hx
        · exact Bool.eq_false_iff.mpr hy
        · exact h x hx
      · intro h x hx
        exact h x (Or.inr hx)

/-! ### Resource-manager lemmas and claim C6 -/

theorem capOk_iff_ceil {cap req : Nat} :
    capOk cap req = true ↔ Nat.ceil ((req : ℚ) * (4 / 5)) ≤ cap := by
  have h1 : capOk cap req = true ↔ (req : ℤ) * 4 * 1 ≤ (cap : ℤ) * (1 * 5) := by
    unfold capOk Q.le Q.mul Q.ofNat
    simp
  have h2 : ((req : ℤ) * 4 * 1 ≤ (cap : ℤ) * (1 * 5)) ↔ req * 4 ≤ cap * 5 := by
    omega
  have h3 : (Nat.ceil ((req : ℚ) * (4 / 5)) ≤ cap) ↔ ((req : ℚ) * (4 / 5) ≤ (cap : ℚ)) :=
    Nat.ceil_le
  have h4 : ((req : ℚ) * (4 / 5) ≤ (cap : ℚ)) ↔ ((req : ℚ) * 4 ≤ (cap : ℚ) * 5) := by
    rw [mul_div_assoc'] at *
    constructor
    · intro h
      have := (div_le_iff₀ (by norm_num : (0 : ℚ) < 5)).mp h
      linarith
    · intro h
      apply (div_le_iff₀ (by norm_num : (0 : ℚ) < 5)).mpr
      linarith
  have h5 : ((req : ℚ) * 4 ≤ (cap : ℚ) * 5) ↔ req * 4 ≤ cap * 5 := by
    constructor
    · intro h; exact_mod_cast h
    · intro h; exact_mod_cast h
  rw [h1, h2, h3, h4, h5]

theorem room_capacity_hall (h : Hall) : (Room.hall h).capacity = h.capacity := rfl

theorem room_capacity_lab (l : Lab) : (Room.lab l).capacity = l.capacity := rfl

theorem mem_get_suitable_rooms {rm : ResourceManager} {block : Block} {r : Room} :
    r ∈ get_suitable_rooms rm block ↔
      kind_appropriate rm block r ∧ capOk r.capacity block.student_count = true := by
  unfold get_suitable_rooms
  rw [mem_sortBy]
  by_cases hlab : block.required_room_type = labTag
  · by_cases hpref : block.preferred_rooms = []
    · rw [if_pos hlab]
      have : (!block.preferred_rooms.isEmpty) = false := by rw [hpref]; rfl
      rw [this]
      simp only [Bool.false_eq_true, if_false, List.mem_map, List.mem_filter]
      constructor
      · rintro ⟨l, ⟨hl, hcap⟩, rfl⟩
        rcases (by simpa using hcap :
            l.used_in_non_specialist_courses = true ∧
              capOk l.capacity block.student_count = true) with ⟨hused, hcap2⟩
        exact ⟨Or.inr (Or.inl ⟨hlab, hpref, l, hl, rfl, hused⟩), hcap2⟩
      · rintro ⟨hka, hcap⟩
        rcases hka with ⟨_, hne, _⟩ | ⟨_, _, l, hl, rfl, hused⟩ | ⟨hne, _⟩
        · exact absurd hpref hne
        · refine ⟨l, ⟨hl, ?_⟩, rfl⟩
          simp only [hused, Bool.true_and]
          exact hcap
        · exact absurd hlab hne
    · rw [if_pos hlab]
      have : (!block.preferred_rooms.isEmpty) = true := by
        cases hp : block.preferred_rooms with
        | nil => exact absurd hp hpref
        | cons x xs => rfl
      rw [this]
      simp only [if_true, List.mem_filter]
      constructor
      · rintro ⟨hmem, hcap⟩
        exact ⟨Or.inl ⟨hlab, hpref, hmem⟩, hcap⟩
      · rintro ⟨hka, hcap⟩
        rcases hka with ⟨_, _, hmem⟩ | ⟨_, hemp, _⟩ | ⟨hne, _⟩
        · exact ⟨hmem, hcap⟩
        · exact absurd hemp hpref
        · exact absurd hlab hne
  · rw [if_neg hlab]
    simp only [List.mem_map, List.mem_filter]
    constructor
    · rintro ⟨h, ⟨hh, hcap⟩, rfl⟩
      exact ⟨Or.inr (Or.inr ⟨hlab, h, hh, rfl⟩), hcap⟩
    · rintro ⟨hka, hcap⟩
      rcases hka with ⟨hl, _⟩ | ⟨hl, _⟩ | ⟨_, h, hh, rfl⟩
      · exact absurd hl hlab
      · exact absurd hl hlab
      · exact ⟨h, ⟨hh, hcap⟩, rfl⟩

theorem get_suitable_rooms_sorted (rm : ResourceManager) (block : Block) :
    (get_suitable_rooms rm block).Pairwise
      (fun r1 r2 => capacityDist r1.capacity block.student_count ≤
        capacityDist r2.capacity block.student_count) := by
  unfold get_suitable_rooms
  have hp := @pairwise_sortBy Room
    (fun a b : Room =>
      decide (capacityDist a.capacity block.student_count ≤
        capacityDist b.capacity block.student_count))
    (fun a b => by
      rcases Nat.le_total (capacityDist a.capacity block.student_count)
        (capacityDist b.capacity block.student_count) with h | h
      · exact Or.inl (by simpa using h)
      · exact Or.inr (by simpa using h))
    (fun a b c hab hbc => by
      simp only [decide_eq_true_eq] at hab hbc ⊢
      exact le_trans hab hbc)
  exact (hp _).imp (fun h => by simpa using h)

/-- Claim C6: candidate-room enumeration returns exactly the
kind-appropriate rooms whose integer capacity reaches
`ceil(student_count * 0.8)` (the code's fractional comparison being
equivalent to the ceiling form for integer capacities), sorted ascending
by `|capacity - student_count|` so the tightest fit comes first. -/
theorem claim_c6_suitable_rooms (rm : ResourceManager) (block : Block) :
    (∀ r : Room, r ∈ get_suitable_rooms rm block ↔
      kind_appropriate rm block r ∧
        Nat.ceil ((block.student_count : ℚ) * (4 / 5)) ≤ r.capacity) ∧
    (get_suitable_rooms rm block).Pairwise
      (fun r1 r2 => capacityDist r1.capacity block.student_count ≤
        capacityDist r2.capacity block.student_count) := by
  refine ⟨?_, get_suitable_rooms_sorted rm block⟩
  intro r
  rw [mem_get_suitable_rooms, capOk_iff_ceil]

/-- Witness for C6 on the concrete witness inputs. -/
theorem claim_c6_suitable_rooms_witness :
    Room.hall hallW ∈ get_suitable_rooms rmW blockW ∧
    (get_suitable_rooms rmW blockW).Pairwise
      (fun r1 r2 => capacityDist r1.capacity blockW.student_count ≤
        capacityDist r2.capacity blockW.student_count) := by
  refine ⟨?_, (claim_c6_suitable_rooms rmW blockW).2⟩
  apply ((claim_c6_suitable_rooms rmW blockW).1 (Room.hall hallW)).mpr
  constructor
  · exact Or.inr (Or.inr ⟨by decide, hallW, by decide, rfl⟩)
  · have : ((blockW.student_count : ℚ) * (4 / 5)) = ((16 : ℕ) : ℚ) := by
      norm_num [blockW, mk_lecture_block, courseW, spW]
    rw [this, Nat.ceil_natCast]
    decide

/-! ### Candidate-slot lemmas -/

theorem mem_map_slot {dur : Nat} {tuples : List SlotKey} {s : TimePreference} :
    s ∈ tuples.map (fun k => TimePreference.mk k.1 k.2 (Tm.mk (k.2.hour + dur) 0)) ↔
      (s.day, s.start_time) ∈ tuples ∧
        s.end_time = Tm.mk (s.start_time.hour + dur) 0 := by
  rw [List.mem_map]
  constructor
  · rintro ⟨k, hk, rfl⟩
    exact ⟨hk, rfl⟩
  · rintro ⟨hmem, hend⟩
    refine ⟨(s.day, s.start_time), hmem, ?_⟩
    cases s with
    | mk d st en => simp_all

theorem mem_slot_key_map {l : List TimePreference} {k : SlotKey} :
    k ∈ l.map slot_key ↔ ∃ p ∈ l, p.day = k.1 ∧ p.start_time = k.2 := by
  rw [List.mem_map]
  constructor
  · rintro ⟨p, hp, rfl⟩
    exact ⟨p, hp, rfl, rfl⟩
  · rintro ⟨p, hp, h1, h2⟩
    exact ⟨p, hp, by cases k; simp_all [slot_key]⟩

/-- The deduplicated, not-yet-used tuple list both staff branches start
from. -/
theorem mem_available_base {rm : ResourceManager} {block : Block} {room : Room}
    {existing : List (String × Assignment)} {s : TimePreference}
    (h : s ∈ get_available_slots rm block room existing) :
    (s.day, s.start_time) ∈
        dedupFirst (room.availability.map slot_key) ∧
      s.end_time = Tm.mk (s.start_time.hour + rm.time_slot_duration) 0 := by
  unfold get_available_slots at h
  cases hsm : block.staff_member with
  | ta m =>
    rw [hsm] at h
    rcases mem_map_slot.mp h with ⟨hmem, hend⟩
    rw [mem_sortBy] at hmem
    exact ⟨(List.mem_filter.mp hmem).1, hend⟩
  | lecturer m =>
    rw [hsm] at h
    rcases mem_map_slot.mp h with ⟨hmem, hend⟩
    rw [List.mem_filter] at hmem
    exact ⟨(List.mem_filter.mp hmem.1).1, hend⟩

theorem available_slot_in_availability {rm : ResourceManager} {block : Block}
    {room : Room} {existing : List (String × Assignment)} {s : TimePreference}
    (h : s ∈ get_available_slots rm block room existing) :
    ∃ p ∈ room.availability, p.day = s.day ∧ p.start_time = s.start_time := by
  have hb := (mem_available_base h).1
  rw [mem_dedupFirst, mem_slot_key_map] at hb
  exact hb

theorem available_slot_lecturer {rm : ResourceManager} {block : Block}
    {room : Room} {existing : List (String × Assignment)} {s : TimePreference}
    {m : StaffMember} (hm : block.staff_member = Staff.lecturer m)
    (h : s ∈ get_available_slots rm block room existing) :
    ∃ p ∈ m.timing_preferences, p.day = s.day ∧ p.start_time = s.start_time := by
  unfold get_available_slots at h
  rw [hm] at h
  rcases mem_map_slot.mp h with ⟨hmem, _⟩
  rw [List.mem_filter] at hmem
  have hst := hmem.2
  rw [lmem_iff] at hst
  have : (s.day, s.start_time) ∈
      (Staff.lecturer m).timing_preferences.map slot_key := hst
  rw [mem_slot_key_map] at this
  exact this

theorem available_slot_ta_iff {rm : ResourceManager} {block : Block}
    {room : Room} {existing : List (String × Assignment)} {s : TimePreference}
    {m : StaffMember} (hm : block.staff_member = Staff.ta m) :
    s ∈ get_available_slots rm block room existing ↔
      (s.end_time = Tm.mk (s.start_time.hour + rm.time_slot_duration) 0 ∧
        (∃ p ∈ room.availability, p.day = s.day ∧ p.start_time = s.start_time) ∧
        ¬∃ q ∈ existing, q.2.room = room ∧ q.2.time_slot.day = s.day ∧
          q.2.time_slot.start_time = s.start_time) := by
  unfold get_available_slots
  rw [hm]
  constructor
  · intro h
    rcases mem_map_slot.mp h with ⟨hmem, hend⟩
    rw [mem_sortBy, List.mem_filter] at hmem
    obtain ⟨hbase, husedb⟩ := hmem
    rw [mem_dedupFirst, mem_slot_key_map] at hbase
    refine ⟨hend, hbase, ?_⟩
    rintro ⟨q, hq, hroom, hday, hstart⟩
    have hin : (s.day, s.start_time) ∈
        (existing.filter (fun p => decide (p.2.room = room))).map
          (fun p => slot_key p.2.time_slot) := by
      rw [List.mem_map]
      exact ⟨q, List.mem_filter.mpr ⟨hq, by simp [hroom]⟩,
        by simp [slot_key, hday, hstart]⟩
    rw [lmem_iff.mpr hin] at husedb
    cases husedb
  · rintro ⟨hend, havail, hused⟩
    apply mem_map_slot.mpr
    refine ⟨?_, hend⟩
    rw [mem_sortBy, List.mem_filter]
    refine ⟨mem_dedupFirst.mpr (mem_slot_key_map.mpr havail), ?_⟩
    cases hl : lmem (s.day, s.start_time)
        ((existing.filter (fun p => decide (p.2.room = room))).map
          (fun p => slot_key p.2.time_slot)) with
    | false => rfl
    | true =>
      exfalso
      have := lmem_iff.mp hl
      rw [List.mem_map] at this
      obtain ⟨q, hqf, hk⟩ := this
      rw [List.mem_filter] at hqf
      refine hused ⟨q, hqf.1, by simpa using hqf.2, ?_, ?_⟩
      · exact congrArg Prod.fst hk
      · exact congrArg Prod.snd hk

theorem taPrefLe_total (staff : List SlotKey) (a b : SlotKey) :
    taPrefLe staff a b = true ∨ taPrefLe staff b a = true := by
  cases h1 : lmem a staff <;> cases h2 : lmem b staff <;>
    simp [taPrefLe, h1, h2]

theorem taPrefLe_trans (staff : List SlotKey) (a b c : SlotKey)
    (hab : taPrefLe staff a b = true) (hbc : taPrefLe staff b c = true) :
    taPrefLe staff a c = true := by
  cases h1 : lmem a staff <;> cases h2 : lmem b staff <;>
    cases h3 : lmem c staff <;> simp_all [taPrefLe]

theorem available_slots_ta_pref_first {rm : ResourceManager} {block : Block}
    {room : Room} {existing : List (String × Assignment)} {m : StaffMember}
    (hm : block.staff_member = Staff.ta m) :
    (get_available_slots rm block room existing).Pairwise
      (fun s1 s2 =>
        lmem (slot_key s2) (m.timing_preferences.map slot_key) = true →
        lmem (slot_key s1) (m.timing_preferences.map slot_key) = true) := by
  unfold get_available_slots
  rw [hm]
  apply List.pairwise_map.mpr
  have hp := pairwise_sortBy (taPrefLe_total ((Staff.ta m).timing_preferences.map slot_key))
    (taPrefLe_trans ((Staff.ta m).timing_preferences.map slot_key))
    ((dedupFirst (room.availability.map slot_key)).filter
      (fun k => !lmem k ((existing.filter (fun p => decide (p.2.room = room))).map
        (fun p => slot_key p.2.time_slot))))
  refine hp.imp ?_
  intro k1 k2 hle hin
  have hsk : ∀ k : SlotKey,
      slot_key (TimePreference.mk k.1 k.2 (Tm.mk (k.2.hour + rm.time_slot_duration) 0)) = k := by
    intro k; cases k; rfl
  rw [hsk] at hin ⊢
  unfold taPrefLe at hle
  cases h2 : lmem k2 ((Staff.ta m).timing_preferences.map slot_key) with
  | false =>
    have : (Staff.ta m).timing_preferences = m.timing_preferences := rfl
    rw [this] at h2
    rw [h2] at hin
    cases hin
  | true =>
    rw [h2] at hle
    simp only [Bool.not_true, Bool.false_or] at hle
    have : (Staff.ta m).timing_preferences = m.timing_preferences := rfl
    rw [this] at hle
    exact hle

/-! ### Engine lemmas: single-block scheduling and block conversion -/

theorem find_room_slot_spec {rm : ResourceManager} {cm : CM} {block : Block} :
    ∀ {rooms : List Room} {a : Assignment},
    find_room_slot rm cm block rooms = some a →
    a.block = block ∧ a.room ∈ rooms ∧
      a.time_slot ∈ get_available_slots rm block a.room cm.current_assignments ∧
      can_assign cm block a.time_slot a.room = true := by
  intro rooms
  induction rooms with
  | nil => intro a h; simp [find_room_slot] at h
  | cons room rest ih =>
    intro a h
    unfold find_room_slot at h
    cases hf : lfind (fun slot => can_assign cm block slot room)
        (get_available_slots rm block room cm.current_assignments) with
    | some slot =>
      rw [hf] at h
      injection h with h
      subst h
      rcases lfind_some hf with ⟨hmem, hcan⟩
      exact ⟨rfl, List.mem_cons_self _ _, hmem, hcan⟩
    | none =>
      rw [hf] at h
      rcases ih h with ⟨h1, h2, h3, h4⟩
      exact ⟨h1, List.mem_cons_of_mem _ h2, h3, h4⟩

theorem schedule_single_block_spec {rm : ResourceManager} {cm : CM}
    {block : Block} {a : Assignment}
    (h : schedule_single_block rm cm block = some a) :
    a.block = block ∧ a.room ∈ get_suitable_rooms rm block ∧
      a.time_slot ∈ get_available_slots rm block a.room cm.current_assignments ∧
      can_assign cm block a.time_slot a.room = true :=
  find_room_slot_spec h

theorem mk_lecture_blocks_mem {course : CourseAssignment} {sp : StudyPlan} :
    ∀ {las : List LecturerAssignment} {cnt : Nat} {b : Block},
    b ∈ mk_lecture_blocks course sp las cnt →
    ∃ lect grp, b = mk_lecture_block course sp lect grp := by
  intro las
  induction las with
  | nil => intro cnt b h; simp [mk_lecture_blocks] at h
  | cons la rest ih =>
    intro cnt b h
    unfold mk_lecture_blocks at h
    rw [List.mem_append] at h
    rcases h with h | h
    · rw [List.mem_map] at h
      rcases h with ⟨j, _, rfl⟩
      exact ⟨la.lecturer, cnt + j, rfl⟩
    · exact ih h

theorem mk_lab_blocks_mem {course : CourseAssignment} {sp : StudyPlan} :
    ∀ {tas : List TAAssignment} {cnt : Nat} {b : Block},
    b ∈ mk_lab_blocks course sp tas cnt →
    ∃ ta grp, b = mk_lab_block course sp ta grp := by
  intro tas
  induction tas with
  | nil => intro cnt b h; simp [mk_lab_blocks] at h
  | cons ta rest ih =>
    intro cnt b h
    unfold mk_lab_blocks at h
    rw [List.mem_append] at h
    rcases h with h | h
    · rw [List.mem_map] at h
      rcases h with ⟨j, _, rfl⟩
      exact ⟨ta.teaching_assistant, cnt + j, rfl⟩
    · exact ih h

theorem blocks_of_course_mem {course : CourseAssignment} {sp : StudyPlan}
    {b : Block} (h : b ∈ blocks_of_course course sp) :
    (∃ lect grp, b = mk_lecture_block course sp lect grp) ∨
    (∃ ta grp, b = mk_lab_block course sp ta grp) := by
  unfold blocks_of_course at h
  rw [List.mem_append] at h
  rcases h with h | h
  · exact Or.inl (mk_lecture_blocks_mem h)
  · by_cases hc : 0 < course.lab_groups ∧ ¬course.teaching_assistants.isEmpty
    · rw [if_pos hc] at h
      exact Or.inr (mk_lab_blocks_mem h)
    · rw [if_neg hc] at h
      cases h

theorem convert_mem {inputs : List (CourseAssignment × StudyPlan)} {b : Block}
    (h : b ∈ convert_course_assignments_to_blocks inputs) :
    ∃ p ∈ inputs, b ∈ blocks_of_course p.1 p.2 := by
  induction inputs with
  | nil => simp [convert_course_assignments_to_blocks] at h
  | cons q rest ih =>
    unfold convert_course_assignments_to_blocks at h
    rw [List.foldr_cons, List.mem_append] at h
    rcases h with h | h
    · exact ⟨q, List.mem_cons_self _ _, h⟩
    · rcases ih h with ⟨p, hp, hb⟩
      exact ⟨p, List.mem_cons_of_mem _ hp, hb⟩

theorem convert_block_wf {inputs : List (CourseAssignment × StudyPlan)}
    {b : Block} (h : b ∈ convert_course_assignments_to_blocks inputs) :
    BlockWF inputs b := by
  rcases convert_mem h with ⟨p, hp, hb⟩
  rcases blocks_of_course_mem hb with ⟨lect, grp, rfl⟩ | ⟨ta, grp, rfl⟩
  · exact ⟨rfl, Or.inl rfl, Or.inl rfl⟩
  · refine ⟨rfl, ?_, ?_⟩
    · unfold mk_lab_block
      by_cases hpl : p.1.practical_in_lab
      · rw [if_pos hpl]
        exact Or.inr rfl
      · rw [if_neg hpl]
        exact Or.inl rfl
    · by_cases hplabs : p.1.preferred_labs = []
      · exact Or.inl (by simp [mk_lab_block, hplabs])
      · exact Or.inr ⟨p, hp, rfl⟩

/-! ### Engine invariant preservation -/

theorem findBlockById_of_mem {cm : CM} {bid : String} {a : Assignment}
    (hids : ∀ p ∈ cm.current_assignments, p.1 = p.2.block.id)
    (hnd : (akeys cm.current_assignments).Nodup)
    (hmem : (bid, a) ∈ cm.current_assignments) :
    findBlockById cm.current_assignments bid = some a.block := by
  unfold findBlockById
  cases hf : lfind (fun p => decide (p.2.block.id = bid)) cm.current_assignments with
  | none =>
    exfalso
    have hall := lfind_eq_none.mp hf (bid, a) hmem
    have hid := hids (bid, a) hmem
    simp only at hid
    rw [← hid] at hall
    simp at hall
  | some q =>
    rcases lfind_some hf with ⟨hqmem, hqpred⟩
    have hqid : q.1 = q.2.block.id := hids q hqmem
    have hqb : q.2.block.id = bid := of_decide_eq_true hqpred
    have hq1 : q.1 = bid := hqid.trans hqb
    have hq : (bid, q.2) ∈ cm.current_assignments := by
      rw [← hq1]
      exact hqmem
    have : q.2 = a := nodup_mem_unique hnd hq hmem
    simp [Option.map, this]

theorem cohort_from_check {cm : CM} {block : Block} {slot : TimePreference}
    {room : Room}
    (hinv : Inv cm) (hids : ∀ p ∈ cm.current_assignments, p.1 = p.2.block.id)
    (hcheck : check_single_group_conflict cm block slot room = true)
    {bid1 : String} {a1 : Assignment}
    (hmem : (bid1, a1) ∈ cm.current_assignments)
    (hkey : sp_key_of a1 = (block.academic_list, slot.day, slot.start_time)) :
    a1.block.is_single_group_course = false ∧
    block.is_single_group_course = false ∧
    (a1.block.course_code = block.course_object.course_code →
      block.total_groups ≠ 1 ∧ a1.block.total_groups ≠ 1) := by
  obtain ⟨bids, hbuck, hbidin⟩ := hinv.sp_complete _ _ hmem
  rw [hkey] at hbuck
  unfold check_single_group_conflict at hcheck
  rw [hbuck] at hcheck
  replace hcheck : (if block.is_single_group_course = true then false
      else lall (fun eb =>
          !eb.is_single_group_course &&
            (decide (eb.course_code ≠ block.course_object.course_code) ||
              decide (block.total_groups ≠ 1) && decide (eb.total_groups ≠ 1)))
        (bids.filterMap (findBlockById cm.current_assignments))) = true := hcheck
  by_cases hsingle : block.is_single_group_course = true
  · rw [if_pos hsingle] at hcheck; cases hcheck
  · rw [if_neg hsingle] at hcheck
    have hs0 : block.is_single_group_course = false := Bool.eq_false_iff.mpr hsingle
    have hfind : findBlockById cm.current_assignments bid1 = some a1.block :=
      findBlockById_of_mem hids hinv.as_nodup hmem
    have hex : a1.block ∈ bids.filterMap (findBlockById cm.current_assignments) :=
      List.mem_filterMap.mpr ⟨bid1, hbidin, hfind⟩
    have hb := lall_iff.mp hcheck _ hex
    simp only [Bool.and_eq_true, Bool.or_eq_true, Bool.not_eq_true',
      decide_eq_true_eq] at hb
    obtain ⟨hs1, hrest⟩ := hb
    refine ⟨hs1, hs0, ?_⟩
    intro hcc
    rcases hrest with hne | ⟨ht1, ht2⟩
    · exact absurd hcc hne
    · exact ⟨ht1, ht2⟩

theorem eng_inv_empty (rm : ResourceManager) (B : List Block) : EngInv rm B CM.empty := by
  refine ⟨inv_empty, ?_, ?_, ?_, ?_, ?_, ?_, ?_⟩ <;>
    intro p hp <;> simp [CM.empty] at hp

theorem eng_inv_commit {rm : ResourceManager} {B : List Block} {cm : CM}
    {block : Block} {a : Assignment}
    (he : EngInv rm B cm)
    (hblk : block ∈ B)
    (hcode : block.course_code = block.course_object.course_code)
    (hb : a.block = block)
    (hroom : a.room ∈ get_suitable_rooms rm block)
    (hslot : a.time_slot ∈ get_available_slots rm block a.room cm.current_assignments)
    (hcan : can_assign cm block a.time_slot a.room = true) :
    EngInv rm B (make_assignment cm block.id a).2 := by
  rw [make_assignment_eq]
  by_cases hok : commit_ok cm block.id a
  case neg => rw [if_neg hok]; exact he
  case pos =>
  rw [if_pos hok]
  have hcur : (apply_add cm block.id a).current_assignments =
      cm.current_assignments ++ [(block.id, a)] := by
    rw [apply_add_current, aset_fresh a hok.1]
  have hcan' := hcan
  simp only [can_assign, Bool.and_eq_true] at hcan'
  obtain ⟨⟨⟨⟨hcrb, hcsb⟩, hcra⟩, hcsg⟩, hclr⟩ := hcan'
  refine ⟨inv_apply_add he.inv hok, ?_, ?_, ?_, ?_, ?_, ?_, ?_⟩
  · -- ids
    intro p hp
    rw [hcur] at hp
    rcases List.mem_append.mp hp with hold | hnew
    · exact he.ids p hold
    · rcases List.mem_singleton.mp hnew
      show block.id = a.block.id
      rw [hb]
  · -- blocksrc
    intro p hp
    rw [hcur] at hp
    rcases List.mem_append.mp hp with hold | hnew
    · exact he.blocksrc p hold
    · rcases List.mem_singleton.mp hnew
      show a.block ∈ B
      rw [hb]; exact hblk
  · -- labreq
    intro p hp
    rw [hcur] at hp
    rcases List.mem_append.mp hp with hold | hnew
    · exact he.labreq p hold
    · rcases List.mem_singleton.mp hnew
      show check_lab_requirements a.block a.time_slot a.room = true
      rw [hb]; exact hclr
  · -- availk
    intro p hp
    rw [hcur] at hp
    rcases List.mem_append.mp hp with hold | hnew
    · exact he.availk p hold
    · rcases List.mem_singleton.mp hnew
      exact available_slot_in_availability hslot
  · -- lectpref
    intro p hp
    rw [hcur] at hp
    rcases List.mem_append.mp hp with hold | hnew
    · exact he.lectpref p hold
    · rcases List.mem_singleton.mp hnew
      intro m hm
      have hm' : block.staff_member = Staff.lecturer m := by rw [← hb]; exact hm
      exact available_slot_lecturer hm' hslot
  · -- roomsrc
    intro p hp
    rw [hcur] at hp
    rcases List.mem_append.mp hp with hold | hnew
    · exact he.roomsrc p hold
    · rcases List.mem_singleton.mp hnew
      rcases (mem_get_suitable_rooms.mp hroom).1 with
        ⟨_, _, hmem⟩ | ⟨_, _, l, hl, hr, _⟩ | ⟨_, h, hh, hr⟩
      · exact Or.inr (Or.inr (by rw [hb]; exact hmem))
      · exact Or.inr (Or.inl ⟨l, hl, hr⟩)
      · exact Or.inl ⟨h, hh, hr⟩
  · -- cohort
    rw [hcur]
    intro p1 hp1 p2 hp2 hne hkey
    have hkeya : sp_key_of a = (block.academic_list, a.time_slot.day,
        a.time_slot.start_time) := by
      unfold sp_key_of
      rw [hb]
    rcases List.mem_append.mp hp1 with h1 | h1 <;>
      rcases List.mem_append.mp hp2 with h2 | h2
    · exact he.cohort p1 h1 p2 h2 hne hkey
    · rcases List.mem_singleton.mp h2
      rcases p1 with ⟨bid1, a1⟩
      have hfacts := cohort_from_check he.inv he.ids hcsg h1
        (by rw [← hkeya]; exact hkey)
      refine ⟨hfacts.1, ?_, ?_⟩
      · show a.block.is_single_group_course = false
        rw [hb]; exact hfacts.2.1
      · intro hcc
        have hcc' : a1.block.course_code = block.course_object.course_code := by
          rw [← hcode, ← hb]
          exact hcc
        have := hfacts.2.2 hcc'
        constructor
        · exact this.2
        · show a.block.total_groups ≠ 1
          rw [hb]; exact this.1
    · rcases List.mem_singleton.mp h1
      rcases p2 with ⟨bid2, a2⟩
      have hfacts := cohort_from_check he.inv he.ids hcsg h2
        (by rw [← hkeya]; exact hkey.symm)
      refine ⟨?_, hfacts.1, ?_⟩
      · show a.block.is_single_group_course = false
        rw [hb]; exact hfacts.2.1
      · intro hcc
        have hcc' : a2.block.course_code = block.course_object.course_code := by
          rw [← hcode, ← hb]
          exact hcc.symm
        have := hfacts.2.2 hcc'
        constructor
        · show a.block.total_groups ≠ 1
          rw [hb]; exact this.1
        · exact this.2
    · rcases List.mem_singleton.mp h1
      rcases List.mem_singleton.mp h2
      exact absurd rfl hne

/-! ### Placement loop and attempt loop -/

theorem place_blocks_eng_inv {rm : ResourceManager} {B : List Block}
    (hwf : ∀ b ∈ B, b.course_code = b.course_object.course_code) :
    ∀ {blocks : List Block} {cm : CM} {count : Nat},
    EngInv rm B cm → (∀ b ∈ blocks, b ∈ B) →
    EngInv rm B (place_blocks rm blocks cm count).1 := by
  intro blocks
  induction blocks with
  | nil => intro cm count he _; exact he
  | cons block rest ih =>
    intro cm count he hsub
    unfold place_blocks
    cases hs : schedule_single_block rm cm block with
    | none => exact ih he (fun b hb => hsub b (List.mem_cons_of_mem _ hb))
    | some a =>
      obtain ⟨hb, hroom, hslot, hcan⟩ := schedule_single_block_spec hs
      have hblk := hsub block (List.mem_cons_self _ _)
      exact ih (eng_inv_commit he hblk (hwf block hblk) hb hroom hslot hcan)
        (fun b hb' => hsub b (List.mem_cons_of_mem _ hb'))

theorem place_blocks_length {rm : ResourceManager} :
    ∀ {blocks : List Block} {cm : CM} {count : Nat},
    (place_blocks rm blocks cm count).1.current_assignments.length + count =
      (place_blocks rm blocks cm count).2 + cm.current_assignments.length := by
  intro blocks
  induction blocks with
  | nil =>
    intro cm count
    show cm.current_assignments.length + count = count + cm.current_assignments.length
    omega
  | cons block rest ih =>
    intro cm count
    unfold place_blocks
    cases hs : schedule_single_block rm cm block with
    | none => exact ih
    | some a =>
      dsimp only
      rw [make_assignment_eq]
      by_cases hok : commit_ok cm block.id a
      · rw [if_pos hok]
        dsimp only
        have hlen : (apply_add cm block.id a).current_assignments.length =
            cm.current_assignments.length + 1 := by
          rw [apply_add_current, aset_fresh a hok.1, List.length_append]
          rfl
        have := @ih (apply_add cm block.id a) (count + 1)
        rw [if_pos rfl]
        omega
      · rw [if_neg hok]
        dsimp only
        have := @ih cm count
        have hff : ¬(false = true) := by simp
        rw [if_neg hff]
        exact this

theorem qlt_irrefl (q : Q) : Q.lt q q = false := by
  unfold Q.lt
  simp

theorem evaluate_schedule_nil (cm : CM) : evaluate_schedule cm [] = Q.ofNat 0 := rfl

theorem run_attempt_count (rm : ResourceManager) (blocks : List Block) :
    (run_attempt rm blocks).assignments.length =
      (run_attempt rm blocks).scheduled_count := by
  unfold run_attempt
  have := @place_blocks_length rm
    (sort_blocks_by_priority rm CM.empty blocks) CM.empty 0
  simpa [CM.empty] using this

theorem run_attempt_spec {rm : ResourceManager} {blocks : List Block}
    (hwf : ∀ b ∈ blocks, b.course_code = b.course_object.course_code) :
    ∃ cm : CM, (run_attempt rm blocks).assignments = cm.current_assignments ∧
      EngInv rm blocks cm := by
  refine ⟨(place_blocks rm (sort_blocks_by_priority rm CM.empty blocks)
    CM.empty 0).1, rfl, ?_⟩
  apply place_blocks_eng_inv hwf (eng_inv_empty rm blocks)
  intro b hb
  unfold sort_blocks_by_priority at hb
  exact mem_sortBy.mp hb

theorem run_attempt_score_def (rm : ResourceManager) (blocks : List Block) :
    (run_attempt rm blocks).score =
      evaluate_schedule (place_blocks rm (sort_blocks_by_priority rm CM.empty blocks)
          CM.empty 0).1
        (run_attempt rm blocks).assignments := rfl

theorem run_attempt_score_zero {rm : ResourceManager} {blocks : List Block}
    (h : (run_attempt rm blocks).scheduled_count = 0) :
    (run_attempt rm blocks).score = Q.ofNat 0 := by
  have hlen := run_attempt_count rm blocks
  rw [h] at hlen
  have hnil : (run_attempt rm blocks).assignments = [] :=
    List.length_eq_zero.mp hlen
  rw [run_attempt_score_def, hnil, evaluate_schedule_nil]

theorem attempt_loop_zero_best {rm : ResourceManager} {blocks : List Block}
    {total : Nat} (h : (run_attempt rm blocks).scheduled_count = 0) :
    ∀ n, (attempt_loop rm blocks total n (BestSt.mk [] (Q.ofNat 0) 0)).1 =
      BestSt.mk [] (Q.ofNat 0) 0 := by
  intro n
  induction n with
  | zero => rfl
  | succ n ih =>
    unfold attempt_loop
    dsimp only
    have hupd : ¬(0 < (run_attempt rm blocks).scheduled_count ∨
        ((run_attempt rm blocks).scheduled_count = 0 ∧
          Q.lt (Q.ofNat 0) (run_attempt rm blocks).score = true)) := by
      rw [h, run_attempt_score_zero h]
      simp [qlt_irrefl]
    by_cases hbr : (run_attempt rm blocks).scheduled_count = total ∧
        Q.le (Q.mk 19 20) (run_attempt rm blocks).score = true
    · rw [if_pos hbr, if_neg hupd]
    · rw [if_neg hbr, if_neg hupd]
      dsimp only
      exact ih

theorem attempt_loop_const_best {rm : ResourceManager} {blocks : List Block}
    {total : Nat} :
    ∀ n, (attempt_loop rm blocks total n
        (BestSt.mk (run_attempt rm blocks).assignments (run_attempt rm blocks).score
          (run_attempt rm blocks).scheduled_count)).1 =
      BestSt.mk (run_attempt rm blocks).assignments (run_attempt rm blocks).score
        (run_attempt rm blocks).scheduled_count := by
  intro n
  induction n with
  | zero => rfl
  | succ n ih =>
    unfold attempt_loop
    dsimp only
    have hupd : ¬((run_attempt rm blocks).scheduled_count <
        (run_attempt rm blocks).scheduled_count ∨
        ((run_attempt rm blocks).scheduled_count = (run_attempt rm blocks).scheduled_count ∧
          Q.lt (run_attempt rm blocks).score (run_attempt rm blocks).score = true)) := by
      simp [qlt_irrefl]
    by_cases hbr : (run_attempt rm blocks).scheduled_count = total ∧
        Q.le (Q.mk 19 20) (run_attempt rm blocks).score = true
    · rw [if_pos hbr, if_neg hupd]
    · rw [if_neg hbr, if_neg hupd]
      dsimp only
      exact ih

theorem attempt_loop_pos_best {rm : ResourceManager} {blocks : List Block}
    {total n : Nat} (h : (run_attempt rm blocks).scheduled_count ≠ 0) (hn : n ≠ 0) :
    (attempt_loop rm blocks total n (BestSt.mk [] (Q.ofNat 0) 0)).1 =
      BestSt.mk (run_attempt rm blocks).assignments (run_attempt rm blocks).score
        (run_attempt rm blocks).scheduled_count := by
  cases n with
  | zero => exact absurd rfl hn
  | succ n =>
    unfold attempt_loop
    dsimp only
    have hupd : 0 < (run_attempt rm blocks).scheduled_count ∨
        ((run_attempt rm blocks).scheduled_count = 0 ∧
          Q.lt (Q.ofNat 0) (run_attempt rm blocks).score = true) :=
      Or.inl (Nat.pos_of_ne_zero h)
    by_cases hbr : (run_attempt rm blocks).scheduled_count = total ∧
        Q.le (Q.mk 19 20) (run_attempt rm blocks).score = true
    · rw [if_pos hbr, if_pos hupd]
    · rw [if_neg hbr, if_pos hupd]
      dsimp only
      exact attempt_loop_const_best n

theorem attempt_loop_attempts_break {rm : ResourceManager} {blocks : List Block}
    {total n : Nat} {best : BestSt}
    (hbr : (run_attempt rm blocks).scheduled_count = total ∧
      Q.le (Q.mk 19 20) (run_attempt rm blocks).score = true) (hn : n ≠ 0) :
    (attempt_loop rm blocks total n best).2 = 1 := by
  cases n with
  | zero => exact absurd rfl hn
  | succ n =>
    unfold attempt_loop
    dsimp only
    rw [if_pos hbr]

theorem attempt_loop_attempts_nobreak {rm : ResourceManager} {blocks : List Block}
    {total : Nat}
    (hbr : ¬((run_attempt rm blocks).scheduled_count = total ∧
      Q.le (Q.mk 19 20) (run_attempt rm blocks).score = true)) :
    ∀ n (best : BestSt), (attempt_loop rm blocks total n best).2 = n := by
  intro n
  induction n with
  | zero => intro best; rfl
  | succ n ih =>
    intro best
    unfold attempt_loop
    dsimp only
    rw [if_neg hbr]
    dsimp only
    rw [ih _]

/-! ### `schedule_blocks` characterisation -/

theorem schedule_blocks_cases (rm : ResourceManager)
    (inputs : List (CourseAssignment × StudyPlan)) (n : Nat) :
    (schedule_blocks rm inputs n = Except.error noScheduleMsg ∧
      (n = 0 ∨ (run_attempt rm (convert_course_assignments_to_blocks inputs)).scheduled_count = 0)) ∨
    (schedule_blocks rm inputs n =
      Except.ok (run_attempt rm (convert_course_assignments_to_blocks inputs)).assignments ∧
      n ≠ 0 ∧
      (run_attempt rm (convert_course_assignments_to_blocks inputs)).scheduled_count ≠ 0) := by
  by_cases hn : n = 0
  · subst hn
    exact Or.inl ⟨rfl, Or.inl rfl⟩
  · by_cases hz : (run_attempt rm (convert_course_assignments_to_blocks inputs)).scheduled_count = 0
    · refine Or.inl ⟨?_, Or.inr hz⟩
      unfold schedule_blocks
      dsimp only
      rw [attempt_loop_zero_best hz]
      rfl
    · refine Or.inr ⟨?_, hn, hz⟩
      unfold schedule_blocks
      dsimp only
      rw [attempt_loop_pos_best hz hn]
      have hfalse : (run_attempt rm
          (convert_course_assignments_to_blocks inputs)).assignments.isEmpty = false := by
        cases hemp : (run_attempt rm
            (convert_course_assignments_to_blocks inputs)).assignments.isEmpty with
        | false => rfl
        | true =>
          exfalso
          apply hz
          rw [← run_attempt_count]
          exact List.length_eq_zero.mpr (List.isEmpty_iff.mp hemp)
      simp only [hfalse, Bool.false_eq_true, if_false]

theorem schedule_blocks_entries {rm : ResourceManager}
    {inputs : List (CourseAssignment × StudyPlan)} {n : Nat}
    {out : List (String × Assignment)}
    (h : schedule_blocks rm inputs n = Except.ok out) :
    ∃ cm : CM, out = cm.current_assignments ∧
      EngInv rm (convert_course_assignments_to_blocks inputs) cm := by
  rcases schedule_blocks_cases rm inputs n with ⟨herr, _⟩ | ⟨hok, _, _⟩
  · rw [herr] at h; cases h
  · rw [hok] at h
    injection h with h
    subst h
    exact run_attempt_spec (fun b hb => (convert_block_wf hb).1)

/-! ### Claims C1, C2 and C10 (constraint-manager level) -/

/-- Claim C1: in every state reachable from the empty state by any
sequence of `make_assignment` and `initialize_fresh_state` calls, every
`(room_kind, room_id)` key holds at most one block id per `(day, start)`
slot and every staff id holds at most one block id per slot, both in the
five-index state (no duplicate keys in `room_bookings` /
`staff_bookings`) and in the assignments map (no two distinct recorded
assignments share a room key and slot, or a staff id and slot). -/
theorem claim_c1_no_double_booking : ∀ cm : CM, Reachable cm → NoDoubleBooking cm :=
  fun _ h => inv_noDoubleBooking (reachable_inv h)

/-- Witness for C1 at a concrete reachable state with one commit. -/
theorem claim_c1_no_double_booking_witness : NoDoubleBooking cmW :=
  claim_c1_no_double_booking cmW
    (Reachable.step CM.empty blockW.id assignW Reachable.init)

/-- Claim C2: `make_assignment` is atomic — for every prior state it
either returns success with the whole state updated (`apply_add` writes
all five indices and the assignments map) or returns failure with the
state exactly equal to the prior state; in particular it fails without
state change when the block id is already present, and when the commit
verification finds a room or staff conflict at the same slot. -/
theorem claim_c2_make_assignment_atomic (cm : CM) (bid : String) (a : Assignment) :
    (make_assignment cm bid a = (true, apply_add cm bid a) ∨
      make_assignment cm bid a = (false, cm)) ∧
    ((alookup bid cm.current_assignments).isSome = true →
      make_assignment cm bid a = (false, cm)) ∧
    (verify_no_conflicts_before_commit cm a = false →
      make_assignment cm bid a = (false, cm)) := by
  refine ⟨?_, ?_, ?_⟩
  · by_cases h : commit_ok cm bid a
    · exact Or.inl (make_assignment_success h)
    · exact Or.inr (make_assignment_fail h)
  · intro h
    apply make_assignment_fail
    intro hc
    rw [hc.1] at h
    simp at h
  · intro h
    apply make_assignment_fail
    intro hc
    rw [hc.2.1] at h
    cases h

/-- Witness for C2: re-committing an already-assigned block id fails and
leaves the state untouched. -/
theorem claim_c2_make_assignment_atomic_witness :
    make_assignment cmW blockW.id assignW = (false, cmW) :=
  (claim_c2_make_assignment_atomic cmW blockW.id assignW).2.1 (by decide)

/-- Claim C10 (implicit): the defensive check inside `make_assignment`
covers only double-booking — whenever the block id is fresh and no stored
assignment shares the slot with the same room key or staff id, the commit
succeeds, regardless of room availability, the cohort rule, or
room-kind/lab rules. -/
theorem claim_c10_commit_only_checks_double_booking :
    ∀ cm : CM, ∀ bid : String, ∀ a : Assignment, Reachable cm →
    alookup bid cm.current_assignments = none →
    (∀ p ∈ cm.current_assignments,
      slot_key p.2.time_slot = slot_key a.time_slot →
      get_room_key p.2.room ≠ get_room_key a.room ∧
      p.2.block.staff_member.sid ≠ a.block.staff_member.sid) →
    make_assignment cm bid a = (true, apply_add cm bid a) := by
  intro cm bid a hr hfresh hnoc
  have hinv := reachable_inv hr
  apply make_assignment_success
  refine ⟨hfresh, ?_, ?_, ?_⟩
  · apply lall_iff.mpr
    intro p hp
    by_cases hd : p.2.time_slot.day = a.time_slot.day
    · by_cases hst : p.2.time_slot.start_time = a.time_slot.start_time
      · have hs : slot_key p.2.time_slot = slot_key a.time_slot := by
          simp [slot_key, hd, hst]
        obtain ⟨hroom, hstaff⟩ := hnoc p hp hs
        simp [hroom, hstaff]
      · simp [hst]
    · simp [hd]
  · cases hlo : alookup (room_slot_of a) cm.room_bookings with
    | none => rfl
    | some b =>
      rcases hinv.rb_sound _ _ hlo with ⟨a', hm, hkey⟩
      have hsl : slot_key a'.time_slot = slot_key a.time_slot :=
        congrArg Prod.snd hkey
      have hrk : get_room_key a'.room = get_room_key a.room :=
        congrArg Prod.fst hkey
      exact absurd hrk (hnoc (b, a') hm hsl).1
  · cases hlo : alookup (staff_slot_of a) cm.staff_bookings with
    | none => rfl
    | some b =>
      rcases hinv.sb_sound _ _ hlo with ⟨a', hm, hkey⟩
      have hsl : slot_key a'.time_slot = slot_key a.time_slot :=
        congrArg Prod.snd hkey
      have hsd : a'.block.staff_member.sid = a.block.staff_member.sid :=
        congrArg Prod.fst hkey
      exact absurd hsd (hnoc (b, a') hm hsl).2

/-- Witness for C10: the commit accepts an assignment that violates room
availability (H3) and the single-group cohort rule (H4). -/
theorem claim_c10_commit_only_checks_double_booking_witness :
    check_room_availability blockW2 sun9 (Room.hall hallW2) = false ∧
    check_single_group_conflict cmW blockW2 sun9 (Room.hall hallW2) = false ∧
    make_assignment cmW blockW2.id assignW2 = (true, apply_add cmW blockW2.id assignW2) :=
  ⟨by decide, by decide,
    claim_c10_commit_only_checks_double_booking cmW blockW2.id assignW2
      (Reachable.step CM.empty blockW.id assignW Reachable.init)
      (by decide) (by decide)⟩

/-! ### Claim C3 (cohort invariant) -/

set_option maxRecDepth 20000 in
/-- Counterexample to claim C3 as stated: on the concrete two-course
inputs `inputsC3`, `schedule_blocks` produces a schedule in which two
assigned blocks share the `(academic_list, academic_level, day, start)`
key but belong to different courses, falsifying "all blocks at that key
share the same course_code". -/
theorem claim_c3_cohort_counterexample : c3_claim_refuted = true := by decide

/-- Claim C3, amended: in every schedule `schedule_blocks` returns, two
distinct assignments at the same `(academic_list, academic_level, day,
start)` key involve no single-group block, and when they belong to the
same course both have more than one group.  (The code's check does not
force distinct blocks at the key to share a course code or to differ in
group number, which is what the counterexample exhibits.) -/
theorem claim_c3_cohort_amended :
    ∀ (rm : ResourceManager) (inputs : List (CourseAssignment × StudyPlan))
      (n : Nat) (out : List (String × Assignment)),
    schedule_blocks rm inputs n = Except.ok out →
    ∀ p1 ∈ out, ∀ p2 ∈ out, p1.1 ≠ p2.1 →
    p1.2.block.academic_list = p2.2.block.academic_list →
    p1.2.block.academic_level = p2.2.block.academic_level →
    p1.2.time_slot.day = p2.2.time_slot.day →
    p1.2.time_slot.start_time = p2.2.time_slot.start_time →
    p1.2.block.is_single_group_course = false ∧
      p2.2.block.is_single_group_course = false ∧
      (p1.2.block.course_code = p2.2.block.course_code →
        p1.2.block.total_groups ≠ 1 ∧ p2.2.block.total_groups ≠ 1) := by
  intro rm inputs n out h p1 hp1 p2 hp2 hne hal _hlv hd hst
  obtain ⟨cm, rfl, he⟩ := schedule_blocks_entries h
  apply he.cohort p1 hp1 p2 hp2 hne
  unfold sp_key_of
  rw [hal, hd, hst]

set_option maxRecDepth 20000 in
/-- Witness for the amended C3 on the counterexample schedule: its first
and third assignments share the cohort key, and the theorem yields the
amended facts for them. -/
theorem claim_c3_cohort_amended_witness :
    entC3a.2.block.is_single_group_course = false ∧
      entC3b.2.block.is_single_group_course = false ∧
      (entC3a.2.block.course_code = entC3b.2.block.course_code →
        entC3a.2.block.total_groups ≠ 1 ∧ entC3b.2.block.total_groups ≠ 1) :=
  claim_c3_cohort_amended rmC3 inputsC3 1 outC3 (by rfl) entC3a (by decide)
    entC3b (by decide) (by decide) (by decide) (by decide) (by decide) (by decide)

/-! ### Claim C4 (room kind and preferred rooms) -/

set_option maxRecDepth 20000 in
/-- Counterexample to claim C4 as stated: on `inputsC4` (a course whose
practicals run in halls but whose `preferred_labs` is set), the produced
schedule assigns the lab block to a hall even though its
`preferred_rooms` list is non-empty, falsifying the membership clause. -/
theorem claim_c4_rooms_counterexample : c4_claim_refuted = true := by decide

/-- Claim C4, amended: in every schedule `schedule_blocks` returns, the
room's kind matches the block's `required_room_type`; the
`preferred_rooms` membership is guaranteed only when the block requires a
lab (the code ignores `preferred_rooms` for hall placements, as the
counterexample exhibits); and a lab with
`used_in_non_specialist_courses = false` is never assigned to a block
without `preferred_rooms`. -/
theorem claim_c4_rooms_amended :
    ∀ (rm : ResourceManager) (inputs : List (CourseAssignment × StudyPlan))
      (n : Nat) (out : List (String × Assignment)),
    schedule_blocks rm inputs n = Except.ok out →
    ∀ p ∈ out,
    (p.2.block.required_room_type = hallTag → ∃ hh, p.2.room = Room.hall hh) ∧
    (p.2.block.required_room_type = labTag → ∃ l, p.2.room = Room.lab l) ∧
    (p.2.block.required_room_type = labTag → p.2.block.preferred_rooms ≠ [] →
      p.2.room ∈ p.2.block.preferred_rooms) ∧
    (∀ l, p.2.room = Room.lab l → l.used_in_non_specialist_courses = false →
      p.2.block.preferred_rooms ≠ []) := by
  intro rm inputs n out h p hp
  obtain ⟨cm, rfl, he⟩ := schedule_blocks_entries h
  have hwf := convert_block_wf (he.blocksrc p hp)
  refine ⟨?_, ?_, ?_, ?_⟩
  · intro hh
    have hlr := he.labreq p hp
    unfold check_lab_requirements at hlr
    rw [hh, if_neg (show ¬(hallTag = labTag) by decide), if_pos rfl] at hlr
    cases hr : p.2.room with
    | hall h2 => exact ⟨h2, rfl⟩
    | lab l => rw [hr] at hlr; simp at hlr
  · intro hl
    have hlr := he.labreq p hp
    unfold check_lab_requirements at hlr
    rw [hl, if_pos rfl] at hlr
    cases hr : p.2.room with
    | hall h2 => rw [hr] at hlr; simp at hlr
    | lab l => exact ⟨l, rfl⟩
  · intro hl hpref
    have hlr := he.labreq p hp
    unfold check_lab_requirements at hlr
    rw [hl, if_pos rfl] at hlr
    cases hr : p.2.room with
    | hall h2 => rw [hr] at hlr; simp at hlr
    | lab l =>
      rw [hr] at hlr
      dsimp only at hlr
      have hne : (!p.2.block.preferred_rooms.isEmpty) = true := by
        cases hpe : p.2.block.preferred_rooms with
        | nil => exact absurd hpe hpref
        | cons x xs => rfl
      rw [if_pos hne] at hlr
      exact lmem_iff.mp hlr
  · intro l hr hused
    rcases hwf.2.1 with hh | hl
    · exfalso
      have hlr := he.labreq p hp
      unfold check_lab_requirements at hlr
      rw [hh, if_neg (show ¬(hallTag = labTag) by decide), if_pos rfl, hr] at hlr
      simp at hlr
    · intro hpe
      have hlr := he.labreq p hp
      unfold check_lab_requirements at hlr
      rw [hl, if_pos rfl, hr] at hlr
      dsimp only at hlr
      have hemp : (!p.2.block.preferred_rooms.isEmpty) = false := by
        rw [hpe]; rfl
      rw [if_neg (show ¬((!p.2.block.preferred_rooms.isEmpty) = true) by
        rw [hemp]; exact Bool.false_ne_true)] at hlr
      rw [hused] at hlr
      simp at hlr

set_option maxRecDepth 20000 in
/-- Witness for the amended C4 on the counterexample schedule's lab
block. -/
theorem claim_c4_rooms_amended_witness :
    ((outC4ent.2.block.required_room_type = hallTag →
        ∃ hh, outC4ent.2.room = Room.hall hh) ∧
      (outC4ent.2.block.required_room_type = labTag →
        ∃ l, outC4ent.2.room = Room.lab l) ∧
      (outC4ent.2.block.required_room_type = labTag →
        outC4ent.2.block.preferred_rooms ≠ [] →
        outC4ent.2.room ∈ outC4ent.2.block.preferred_rooms) ∧
      (∀ l, outC4ent.2.room = Room.lab l →
        l.used_in_non_specialist_courses = false →
        outC4ent.2.block.preferred_rooms ≠ [])) :=
  claim_c4_rooms_amended rmC4 inputsC4 1 outC4 (by rfl) outC4ent (by decide)

/-! ### Claim C5 (lecturer preferences strict, TA preferences soft) -/

/-- Claim C5: every slot the candidate enumeration returns for a
lecturer's block matches a `(day, start)` of the lecturer's timing
preferences (and hence so does every committed assignment of such a
block, P4); for a TA's block the returned slots are exactly the room's
free availability slots — availability minus the slots already used in
that room, with the canonical end time — merely reordered so that
TA-preferred slots come first. -/
theorem claim_c5_lecturer_strict_ta_soft :
    (∀ (rm : ResourceManager) (block : Block) (room : Room)
        (existing : List (String × Assignment)) (m : StaffMember),
      block.staff_member = Staff.lecturer m →
      ∀ slot ∈ get_available_slots rm block room existing,
        ∃ p ∈ m.timing_preferences,
          p.day = slot.day ∧ p.start_time = slot.start_time) ∧
    (∀ (rm : ResourceManager) (block : Block) (room : Room)
        (existing : List (String × Assignment)) (m : StaffMember),
      block.staff_member = Staff.ta m →
      (∀ slot : TimePreference,
        slot ∈ get_available_slots rm block room existing ↔
          (slot.end_time = Tm.mk (slot.start_time.hour + rm.time_slot_duration) 0 ∧
            (∃ p ∈ room.availability,
              p.day = slot.day ∧ p.start_time = slot.start_time) ∧
            ¬∃ q ∈ existing, q.2.room = room ∧ q.2.time_slot.day = slot.day ∧
              q.2.time_slot.start_time = slot.start_time)) ∧
      (get_available_slots rm block room existing).Pairwise
        (fun s1 s2 =>
          lmem (slot_key s2) (m.timing_preferences.map slot_key) = true →
          lmem (slot_key s1) (m.timing_preferences.map slot_key) = true)) ∧
    (∀ (rm : ResourceManager) (inputs : List (CourseAssignment × StudyPlan))
        (n : Nat) (out : List (String × Assignment)),
      schedule_blocks rm inputs n = Except.ok out →
      ∀ p ∈ out, ∀ m, p.2.block.staff_member = Staff.lecturer m →
        ∃ s ∈ m.timing_preferences,
          s.day = p.2.time_slot.day ∧ s.start_time = p.2.time_slot.start_time) := by
  refine ⟨?_, ?_, ?_⟩
  · intro rm block room existing m hm slot hs
    exact available_slot_lecturer hm hs
  · intro rm block room existing m hm
    exact ⟨fun slot => available_slot_ta_iff hm, available_slots_ta_pref_first hm⟩
  · intro rm inputs n out h p hp m hm
    obtain ⟨cm, rfl, he⟩ := schedule_blocks_entries h
    exact he.lectpref p hp m hm

/-- Witness for C5: the candidate slot Sunday 09:00 for the witness
lecturer block indeed matches the lecturer's preference list. -/
theorem claim_c5_lecturer_strict_ta_soft_witness :
    ∃ p ∈ lecN.timing_preferences,
      p.day = sun9.day ∧ p.start_time = sun9.start_time :=
  claim_c5_lecturer_strict_ta_soft.1 rmW blockW (Room.hall hallW) [] lecN rfl
    sun9 (by decide)

/-! ### Claim C7 (best attempt, early stop, and NoSchedule failure) -/

/-- Claim C7: `schedule_blocks` raises exactly when every attempt placed
zero blocks, otherwise it returns the assignments of an attempt with the
maximum placed count, ties broken by strictly higher mean score and the
earliest attempt on full ties; it stops after the first attempt exactly
when that attempt places every block with mean score at least 0.95.  In
this deterministic embedding every attempt computes the same
`run_attempt` outcome, so "every attempt placed zero" is "no attempts
ran, or the attempt outcome places zero", and the maximum/tie-break rule
collapses to the first attempt's outcome. -/
theorem claim_c7_best_attempt_and_failure :
    ∀ (rm : ResourceManager) (inputs : List (CourseAssignment × StudyPlan))
      (n : Nat),
    ((∃ out, schedule_blocks rm inputs n = Except.ok out) ↔
      ¬(n = 0 ∨
        (run_attempt rm (convert_course_assignments_to_blocks inputs)).scheduled_count = 0)) ∧
    (∀ out, schedule_blocks rm inputs n = Except.ok out →
      out = (run_attempt rm (convert_course_assignments_to_blocks inputs)).assignments) ∧
    ((attempt_loop rm (convert_course_assignments_to_blocks inputs)
        (convert_course_assignments_to_blocks inputs).length n
        (BestSt.mk [] (Q.ofNat 0) 0)).2 =
      if n = 0 then 0
      else if (run_attempt rm (convert_course_assignments_to_blocks inputs)).scheduled_count =
          (convert_course_assignments_to_blocks inputs).length ∧
          Q.le (Q.mk 19 20)
            (run_attempt rm (convert_course_assignments_to_blocks inputs)).score = true
        then 1 else n) := by
  intro rm inputs n
  refine ⟨?_, ?_, ?_⟩
  · constructor
    · rintro ⟨out, hout⟩ hz
      rcases schedule_blocks_cases rm inputs n with ⟨herr, _⟩ | ⟨_, hn, hc⟩
      · rw [herr] at hout; cases hout
      · rcases hz with hz | hz
        · exact hn hz
        · exact hc hz
    · intro hz
      rcases schedule_blocks_cases rm inputs n with ⟨_, hor⟩ | ⟨hok, _, _⟩
      · exact absurd hor hz
      · exact ⟨_, hok⟩
  · intro out hout
    rcases schedule_blocks_cases rm inputs n with ⟨herr, _⟩ | ⟨hok, _, _⟩
    · rw [herr] at hout; cases hout
    · rw [hok] at hout
      injection hout with hout
      exact hout.symm
  · by_cases hn : n = 0
    · subst hn
      rfl
    · rw [if_neg hn]
      by_cases hbr : (run_attempt rm (convert_course_assignments_to_blocks inputs)).scheduled_count =
          (convert_course_assignments_to_blocks inputs).length ∧
          Q.le (Q.mk 19 20)
            (run_attempt rm (convert_course_assignments_to_blocks inputs)).score = true
      · rw [if_pos hbr]
        exact attempt_loop_attempts_break hbr hn
      · rw [if_neg hbr]
        exact attempt_loop_attempts_nobreak hbr n _

/-- Witness for C7: on the witness inputs with two attempts allowed, the
run returns the attempt outcome's assignments. -/
theorem claim_c7_best_attempt_and_failure_witness :
    outW = (run_attempt rmW (convert_course_assignments_to_blocks inputsW)).assignments :=
  (claim_c7_best_attempt_and_failure rmW inputsW 2).2.1 outW (by rfl)

/-! ### Claim C8 (Monday 13:00 is never scheduled) -/

/-- Claim C8: when every room availability list (halls, labs and the
preferred labs of the input courses) and every staff member's timing
preferences lie inside the generated 2-hour time grid — which excludes
the Monday 13:00 start — no assignment of a produced schedule occupies
Monday 13:00, regardless of what the staff preferences claim. -/
theorem claim_c8_monday_13_never_scheduled :
    ∀ (rm : ResourceManager) (inputs : List (CourseAssignment × StudyPlan))
      (n : Nat) (out : List (String × Assignment)),
    (∀ h ∈ rm.halls, ∀ s ∈ h.availability,
      (s.day, s.start_time) ∈ (generate_time_slots 2 0).map slot_key) →
    (∀ l ∈ rm.labs, ∀ s ∈ l.availability,
      (s.day, s.start_time) ∈ (generate_time_slots 2 0).map slot_key) →
    (∀ p ∈ inputs, ∀ l ∈ p.1.preferred_labs, ∀ s ∈ l.availability,
      (s.day, s.start_time) ∈ (generate_time_slots 2 0).map slot_key) →
    (∀ p ∈ inputs, ∀ la ∈ p.1.lecturers, ∀ s ∈ la.lecturer.timing_preferences,
      (s.day, s.start_time) ∈ (generate_time_slots 2 0).map slot_key) →
    (∀ p ∈ inputs, ∀ ta ∈ p.1.teaching_assistants,
      ∀ s ∈ ta.teaching_assistant.timing_preferences,
      (s.day, s.start_time) ∈ (generate_time_slots 2 0).map slot_key) →
    schedule_blocks rm inputs n = Except.ok out →
    ∀ p ∈ out,
      ¬(p.2.time_slot.day = Day.monday ∧ p.2.time_slot.start_time = Tm.mk 13 0) := by
  intro rm inputs n out hhalls hlabs hpref _ _ h p hp
  obtain ⟨cm, rfl, he⟩ := schedule_blocks_entries h
  obtain ⟨s, hsav, hsd, hst⟩ := he.availk p hp
  rintro ⟨hmon, h13⟩
  have hkey : (s.day, s.start_time) = ((Day.monday : Day), Tm.mk 13 0) := by
    rw [hsd, hst, hmon, h13]
  have hnot : ((Day.monday : Day), Tm.mk 13 0) ∉
      (generate_time_slots 2 0).map slot_key := by decide
  apply hnot
  rw [← hkey]
  rcases he.roomsrc p hp with ⟨hh, hhm, hr⟩ | ⟨l, hlm, hr⟩ | hprefmem
  · apply hhalls hh hhm s
    rw [hr] at hsav
    exact hsav
  · apply hlabs l hlm s
    rw [hr] at hsav
    exact hsav
  · have hwf := convert_block_wf (he.blocksrc p hp)
    rcases hwf.2.2 with hemp | ⟨cp, hcp, hpe⟩
    · rw [hemp] at hprefmem
      cases hprefmem
    · rw [hpe, List.mem_map] at hprefmem
      rcases hprefmem with ⟨l, hl, hr⟩
      apply hpref cp hcp l hl s
      rw [← hr] at hsav
      exact hsav

/-- Witness for C8 on the witness inputs, whose availabilities are all
inside the grid. -/
theorem claim_c8_monday_13_never_scheduled_witness :
    ¬(entW.2.time_slot.day = Day.monday ∧ entW.2.time_slot.start_time = Tm.mk 13 0) :=
  claim_c8_monday_13_never_scheduled rmW inputsW 2 outW (by decide) (by decide)
    (by decide) (by decide) (by decide) (by rfl) entW (by decide)

end Schedu
